import Mathlib

/-! Input buffer handling (`src/lib/ibuffer.c`)

A shallow embedding of the buffered reader of `ibuffer.c`.  The public handle
(`IBuffer`) and the record it points to (`_IBuffer`) reference each other one
to one, so both are kept in a single record.  `uoff_t` and `size_t` are taken
64 bits wide: every field is a natural number below `M64` and every machine
operation is reduced modulo `M64`.  A failed `i_assert` aborts the program and
is rendered as `none`.
-/

namespace IBuf

/-- Modulus of the unsigned 64-bit types `uoff_t` and `size_t`. -/
def M64 : Nat := 18446744073709551616

/-- Unsigned addition `a + b`. -/
def uadd (a b : Nat) : Nat := (a + b) % M64

/-- Unsigned subtraction `a - b` (wraps when `a < b`). -/
def usub (a b : Nat) : Nat := (a + (M64 - b % M64)) % M64

/-- The cast `(off_t)x` of an unsigned value: two's complement. -/
def to_off_t (x : Nat) : Int :=
  if x % M64 < 9223372036854775808 then ((x % M64 : Nat) : Int)
  else ((x % M64 : Nat) : Int) - (M64 : Int)

/-- Signed 64-bit subtraction `a - b` on `off_t` (wrapping). -/
def off_sub (a b : Int) : Int := to_off_t ((a - b) % (M64 : Int)).toNat

/-- The update `u += d` of a `uoff_t` by an `off_t`: `d` is converted to unsigned. -/
def uoff_add_off (u : Nat) (d : Int) : Nat := (((u : Int) + d) % (M64 : Int)).toNat

/-- Handle and implementation record of one input buffer.
`w_buffer` tells whether the writable alias of `buffer` is non-NULL. -/
structure IBuffer where
  start_offset : Nat
  v_offset : Nat
  v_size : Nat
  v_limit : Nat
  closed : Bool
  buffer : List Nat
  w_buffer : Bool
  skip : Nat
  pos : Nat
  cr_lookup_pos : Nat
  last_cr : Bool
deriving DecidableEq

/-- Every integer field fits its 64-bit type. -/
def IBuffer.inRange (s : IBuffer) : Prop :=
  s.start_offset < M64 ∧ s.v_offset < M64 ∧ s.v_size < M64 ∧ s.v_limit < M64 ∧
  s.skip < M64 ∧ s.pos < M64 ∧ s.cr_lookup_pos < M64

instance (s : IBuffer) : Decidable s.inRange := by
  unfold IBuffer.inRange; infer_instance

/-- The three operations a concrete backend supplies (`_buf->read`,
`_buf->skip_count`, `_buf->seek`); each returns its status and the new record. -/
structure Backend where
  read : IBuffer → Int × IBuffer
  skip_count : IBuffer → Nat → Int × IBuffer
  seek : IBuffer → Nat → Int × IBuffer

/-- `i_buffer_set_start_offset` (lines 64-85). -/
def i_buffer_set_start_offset (s : IBuffer) (offset : Nat) : Option IBuffer :=
  if s.v_size = 0 ∨ offset ≤ uadd s.start_offset s.v_size then
    if offset = s.start_offset then some s
    else
      let diff : Int := off_sub (to_off_t s.start_offset) (to_off_t offset)
      some { s with
        start_offset := offset
        v_offset := uoff_add_off s.v_offset diff
        v_size := if s.v_size ≠ 0 then uoff_add_off s.v_size diff else s.v_size
        v_limit := if s.v_size ≠ 0 then uoff_add_off s.v_limit diff else s.v_limit
        skip := 0
        pos := 0
        cr_lookup_pos := 0
        last_cr := false }
  else none

/-- `i_buffer_set_read_limit` (lines 87-102). -/
def i_buffer_set_read_limit (s : IBuffer) (v_offset : Nat) : Option IBuffer :=
  if v_offset ≤ s.v_size then
    if v_offset = 0 then some { s with v_limit := s.v_size }
    else if v_offset ≥ s.v_offset then
      let s1 := { s with v_limit := v_offset }
      if s1.pos > uadd (usub v_offset s1.v_offset) s1.skip then
        some { s1 with pos := uadd (usub v_offset s1.v_offset) s1.skip }
      else some s1
    else none
  else none

/-- `i_buffer_read` (lines 104-112). -/
def i_buffer_read (be : Backend) (s : IBuffer) : Int × IBuffer :=
  if s.closed then (-1, s) else be.read s

/-- `i_buffer_skip` (lines 114-137). -/
def i_buffer_skip (be : Backend) (s : IBuffer) (count : Nat) : Option (Int × IBuffer) :=
  if s.v_size = 0 ∨ uadd s.v_offset count ≤ s.v_size then
    if count ≤ usub s.pos s.skip then
      some (1, { s with v_offset := uadd s.v_offset count, skip := uadd s.skip count })
    else if s.closed then some (-1, s)
    else
      let data_size := usub s.pos s.skip
      let s1 := { s with skip := s.pos }
      let count1 := usub count data_size
      let s2 := { s1 with v_offset := uadd s1.v_offset data_size }
      some (be.skip_count s2 count1)
  else none

/-- `i_buffer_seek` (lines 139-149). -/
def i_buffer_seek (be : Backend) (s : IBuffer) (v_offset : Nat) : Option (Int × IBuffer) :=
  if v_offset ≤ s.v_size then
    if s.closed then some (-1, s) else some (be.seek s v_offset)
  else none

/-- `i_buffer_skip_lf` (lines 151-164): skip the first LF, if it exists. -/
def i_buffer_skip_lf (s : IBuffer) : IBuffer :=
  if !s.last_cr ∨ s.skip ≥ s.pos then s
  else if s.buffer.getD s.skip 0 = 10 then
    { s with
      cr_lookup_pos :=
        if s.skip = s.cr_lookup_pos then uadd s.cr_lookup_pos 1 else s.cr_lookup_pos
      skip := uadd s.skip 1
      v_offset := uadd s.v_offset 1
      last_cr := false }
  else { s with last_cr := false }

/-- The `for` loop of `i_buffer_next_line` (lines 184-197), run for at most
`fuel` rounds from index `i`: the flag tells whether a CR or LF was met, the
index is that of the terminator, or the value of `i` when the loop ran out. -/
def next_line_scan (buffer : List Nat) (pos : Nat) : Nat → Nat → Bool × Nat
  | 0, i => (false, i)
  | fuel + 1, i =>
    if i < pos then
      if buffer.getD i 0 = 13 ∨ buffer.getD i 0 = 10 then (true, i)
      else next_line_scan buffer pos fuel (uadd i 1)
    else (false, i)

/-- `i_buffer_next_line` (lines 166-201).  The result is the returned pointer,
as an index into `buffer` (`none` for NULL), and the new record.  The loop
runs at most `pos - cr_lookup_pos` rounds. -/
def i_buffer_next_line (s : IBuffer) : Option Nat × IBuffer :=
  let s := i_buffer_skip_lf s
  if s.skip ≥ s.pos then (none, s)
  else if !s.w_buffer then (none, s)
  else
    match next_line_scan s.buffer s.pos (s.pos - s.cr_lookup_pos) s.cr_lookup_pos with
    | (true, i) =>
      let i1 := uadd i 1
      (some s.skip,
        { s with
          last_cr := decide (s.buffer.getD i 0 = 13)
          buffer := s.buffer.set i 0
          v_offset := uadd s.v_offset (usub i1 s.skip)
          skip := i1
          cr_lookup_pos := i1 })
    | (false, i) => (none, { s with cr_lookup_pos := i })

/-- `i_buffer_get_data` (lines 203-216): pointer (index into `buffer`), `*size`
and the new record. -/
def i_buffer_get_data (s : IBuffer) : Option Nat × Nat × IBuffer :=
  let s := i_buffer_skip_lf s
  if s.skip ≥ s.pos then (none, 0, s)
  else (some s.skip, usub s.pos s.skip, s)

/-- The `while` loop of `i_buffer_read_data` (lines 224-229) with a bound on the
number of rounds: `none` when the bound is used up, otherwise the final value
of `ret` and the record. -/
def i_buffer_read_data_loop (be : Backend) (threshold : Nat) :
    Nat → Int → IBuffer → Option (Int × IBuffer)
  | 0, _, _ => none
  | fuel + 1, ret, s =>
    if usub s.pos s.skip ≤ threshold then
      let r := be.read s
      if r.1 < 0 then some (r.1, r.2)
      else i_buffer_read_data_loop be threshold fuel r.1 r.2
    else some (ret, s)

/-- `i_buffer_read_data` (lines 218-235): status, `*data`, `*size` and the new
record; `none` when the loop did not end within `fuel` rounds. -/
def i_buffer_read_data (be : Backend) (fuel : Nat) (s : IBuffer) (threshold : Nat) :
    Option (Int × Option Nat × Nat × IBuffer) :=
  match i_buffer_read_data_loop be threshold fuel 0 s with
  | none => none
  | some (ret, s1) =>
    let r := i_buffer_get_data s1
    let status : Int :=
      if r.2.1 > threshold then 1
      else if ret = -2 then -2
      else if r.2.1 > 0 then 0 else -1
    some (status, r.1, r.2.1, r.2.2)

/-! ## Observing lines and data -/

/-- The line handed out by a successful `i_buffer_next_line`: the bytes from the
returned pointer `p` up to the terminator the call has just overwritten with
NUL, which sits right before the new `skip`. -/
def line_at (s : IBuffer) (p : Nat) : List Nat := (s.buffer.drop p).take (s.skip - 1 - p)

/-- The C string found at pointer `p`: the bytes up to the first NUL. -/
def cstring_at (s : IBuffer) (p : Nat) : List Nat :=
  (s.buffer.drop p).takeWhile (fun b => decide (b ≠ 0))

/-- Calls `i_buffer_next_line` until it returns NULL and collects the lines in
order; `none` when `fuel` calls were made without reaching NULL. -/
def next_lines : Nat → IBuffer → Option (List (List Nat))
  | 0, _ => none
  | fuel + 1, s =>
    match i_buffer_next_line s with
    | (none, _) => some []
    | (some p, s1) => (next_lines fuel s1).map (fun ls => line_at s1 p :: ls)

/-- Reference splitting of a byte sequence into lines, written from the wording
of the property and not from the code: CR LF, a lone CR and a lone LF each end
one line, and an unterminated tail is dropped.  `cur` holds the bytes of the
line being read, last byte first. -/
def split_lines : List Nat → List Nat → List (List Nat)
  | _, [] => []
  | cur, [b] => if b = 13 ∨ b = 10 then [cur.reverse] else []
  | cur, b :: c :: rest =>
    if b = 13 ∧ c = 10 then cur.reverse :: split_lines [] rest
    else if b = 13 ∨ b = 10 then cur.reverse :: split_lines [] (c :: rest)
    else split_lines (b :: cur) (c :: rest)

/-- No CR and no LF among the bytes. -/
def no_eol (l : List Nat) : Prop := ∀ b ∈ l, ¬ (b = 13 ∨ b = 10)

instance (l : List Nat) : Decidable (no_eol l) := by
  unfold no_eol; infer_instance

/-- The bytes left once a pending LF has been absorbed. -/
def after_pending_lf (lc : Bool) (bytes : List Nat) : List Nat :=
  if lc = true ∧ bytes.head? = some 10 then bytes.tail else bytes

/-- The record holds `bytes` as its unconsumed data, between `pre` and `post`,
in a writable buffer, with the line scan not yet started on them. -/
structure Holds (s : IBuffer) (pre bytes post : List Nat) : Prop where
  buf : s.buffer = pre ++ bytes ++ post
  skip : s.skip = pre.length
  cr : s.cr_lookup_pos = pre.length
  pos : s.pos = pre.length + bytes.length
  w : s.w_buffer = true
  rng : s.pos < M64

/-- The record after a backend read that stores `data` right behind the
buffered bytes (from index `pos` on) and advances `pos` over them; `slack` is
whatever follows in the allocation. -/
def read_appends (s : IBuffer) (data slack : List Nat) : IBuffer :=
  { s with buffer := s.buffer.take s.pos ++ data ++ slack, pos := s.pos + data.length }

/-! ## Concrete records and backends -/

/-- A backend at end of stream: every operation fails and changes nothing. -/
def be_eof : Backend :=
  { read := fun s => (-1, s), skip_count := fun s _ => (-1, s), seek := fun s _ => (-1, s) }

/-- An unbounded stream starting at offset 7 with three buffered bytes. -/
def st_rebase : IBuffer :=
  { start_offset := 7, v_offset := 0, v_size := 0, v_limit := 0, closed := false,
    buffer := [1, 2, 65, 66, 67], w_buffer := true,
    skip := 2, pos := 5, cr_lookup_pos := 2, last_cr := false }

/-- The record `st_rebase` after `i_buffer_close`. -/
def st_closed : IBuffer := { st_rebase with closed := true }

/-- Ten bytes at indices 10..19, logical offsets 100..109, limit 108. -/
def st_window : IBuffer :=
  { start_offset := 0, v_offset := 100, v_size := 200, v_limit := 108, closed := false,
    buffer := List.replicate 10 0 ++ [97, 98, 99, 100, 101, 102, 103, 104, 105, 106],
    w_buffer := true, skip := 10, pos := 20, cr_lookup_pos := 10, last_cr := false }

/-- Ten buffered bytes of a stream of size 10 whose read limit is 5. -/
def st_limit5 : IBuffer :=
  { start_offset := 0, v_offset := 0, v_size := 10, v_limit := 5, closed := false,
    buffer := [97, 98, 99, 100, 101, 102, 103, 104, 105, 106], w_buffer := true,
    skip := 0, pos := 10, cr_lookup_pos := 0, last_cr := false }

/-- The two bytes "A" CR, freshly buffered. -/
def st_cr : IBuffer :=
  { start_offset := 0, v_offset := 0, v_size := 0, v_limit := 0, closed := false,
    buffer := [65, 13], w_buffer := true,
    skip := 0, pos := 2, cr_lookup_pos := 0, last_cr := false }

/-- The record reached from `st_cr` once the line "A" was returned and a read
stored the paired LF: one unconsumed byte, LF, with `last_cr` set. -/
def st_pending_lf : IBuffer :=
  { start_offset := 0, v_offset := 2, v_size := 0, v_limit := 0, closed := false,
    buffer := [65, 0, 10], w_buffer := true,
    skip := 2, pos := 3, cr_lookup_pos := 2, last_cr := true }

/-- The five bytes "A" CR LF "B" LF, freshly buffered. -/
def st_crlf : IBuffer :=
  { start_offset := 0, v_offset := 0, v_size := 0, v_limit := 0, closed := false,
    buffer := [65, 13, 10, 66, 10], w_buffer := true,
    skip := 0, pos := 5, cr_lookup_pos := 0, last_cr := false }

/-- The invariant `skip ≤ cr_lookup_pos ≤ pos` of the line-scan cursor. -/
def cr_inv (s : IBuffer) : Prop := s.skip ≤ s.cr_lookup_pos ∧ s.cr_lookup_pos ≤ s.pos

instance (s : IBuffer) : Decidable (cr_inv s) := by
  unfold cr_inv; infer_instance

/-- The eight bytes "ab" LF "cd" LF "ef", freshly buffered. -/
def st_lines : IBuffer :=
  { start_offset := 0, v_offset := 0, v_size := 0, v_limit := 0, closed := false,
    buffer := [97, 98, 10, 99, 100, 10, 101, 102], w_buffer := true,
    skip := 0, pos := 8, cr_lookup_pos := 0, last_cr := false }

/-- A record that has scanned "abcd" without finding a terminator; "e" LF "f"
follows. -/
def st_scanned : IBuffer :=
  { start_offset := 0, v_offset := 0, v_size := 0, v_limit := 0, closed := false,
    buffer := [97, 98, 99, 100, 101, 10, 102], w_buffer := true,
    skip := 0, pos := 7, cr_lookup_pos := 4, last_cr := false }

/-- Ten bytes buffered at indices 10..19 of a stream whose size is the largest
`uoff_t` value. -/
def st_huge : IBuffer :=
  { start_offset := 0, v_offset := 0, v_size := 18446744073709551615,
    v_limit := 18446744073709551615, closed := false,
    buffer := List.replicate 20 97, w_buffer := true,
    skip := 10, pos := 20, cr_lookup_pos := 10, last_cr := false }

/-- Three buffered bytes, the first a pending LF, in a read-only buffer. -/
def st_readonly : IBuffer :=
  { start_offset := 0, v_offset := 2, v_size := 0, v_limit := 0, closed := false,
    buffer := [65, 13, 10, 66, 10], w_buffer := false,
    skip := 2, pos := 5, cr_lookup_pos := 2, last_cr := true }

/-- After a line ended in CR: the paired LF and the two bytes "BC" are buffered. -/
def st_lf_data : IBuffer :=
  { start_offset := 0, v_offset := 2, v_size := 0, v_limit := 0, closed := false,
    buffer := [65, 0, 10, 66, 67], w_buffer := true,
    skip := 2, pos := 5, cr_lookup_pos := 2, last_cr := true }

/-- A bounded stream of size 10 at its start, nothing buffered, limit at the end. -/
def st_bounded : IBuffer :=
  { start_offset := 0, v_offset := 0, v_size := 10, v_limit := 10, closed := false,
    buffer := [], w_buffer := true,
    skip := 0, pos := 0, cr_lookup_pos := 0, last_cr := false }

/-- The record after the first `n` backend reads made from `s`. -/
def after_reads (be : Backend) : Nat → IBuffer → IBuffer
  | 0, s => s
  | n + 1, s => after_reads be n (be.read s).2

/-- The value of `ret` after the first `n` backend reads made from `s`: the
result of the last of them, or the initial 0 when no read was made. -/
def last_read (be : Backend) (n : Nat) (s : IBuffer) : Int :=
  if n = 0 then 0 else (be.read (after_reads be (n - 1) s)).1

/-- The `while` loop of `i_buffer_read_data`, started at `s`, makes exactly `n`
backend reads and then stops: before each read at most `threshold` bytes were
buffered, every read but the last returned a non-negative count, and then
either the last read returned a negative value or more than `threshold` bytes
are buffered. -/
def loop_stops_after (be : Backend) (threshold n : Nat) (s : IBuffer) : Prop :=
  (∀ k, k < n → usub (after_reads be k s).pos (after_reads be k s).skip ≤ threshold) ∧
  (∀ k, k < n → k + 1 < n → 0 ≤ (be.read (after_reads be k s)).1) ∧
  ((0 < n ∧ last_read be n s < 0) ∨
    threshold < usub (after_reads be n s).pos (after_reads be n s).skip)

instance (be : Backend) (threshold n : Nat) (s : IBuffer) :
    Decidable (loop_stops_after be threshold n s) := by
  unfold loop_stops_after; infer_instance

/-- A backend whose buffer is full: every read returns -2. -/
def be_full : Backend :=
  { read := fun s => (-2, s), skip_count := fun s _ => (-1, s), seek := fun s _ => (-1, s) }

/-- A backend that delivers the byte "B" on every read. -/
def be_feed : Backend :=
  { read := fun s => (1, read_appends s [66] []),
    skip_count := fun s _ => (-1, s), seek := fun s _ => (-1, s) }

/-! ## Arithmetic of the 64-bit types -/

/-- Unsigned subtraction is exact when it does not wrap. -/
theorem usub_eq {a b : Nat} (ha : a < M64) (hb : b ≤ a) : usub a b = a - b := by
  unfold usub M64 at *; omega

/-- Unsigned addition is exact when it does not wrap. -/
theorem uadd_eq {a b : Nat} (h : a + b < M64) : uadd a b = a + b := by
  unfold uadd M64 at *; omega

/-- Adding the signed difference of two offsets is addition of `a - b` modulo `2^64`. -/
theorem uoff_add_off_diff (u a b : Nat) (hu : u < M64) :
    ((uoff_add_off u (off_sub (to_off_t a) (to_off_t b)) : Nat) : Int) =
      ((u : Int) + ((a : Int) - (b : Int))) % (M64 : Int) := by
  unfold uoff_add_off off_sub to_off_t M64 at *
  simp only [Nat.cast_ofNat]
  split_ifs <;> omega

/-! ## The line scan -/

/-- Reading the byte that follows `pre ++ l`. -/
theorem getD_mid (pre l : List Nat) (x : Nat) (xs : List Nat) :
    (pre ++ l ++ x :: xs).getD (pre.length + l.length) 0 = x := by
  rw [← List.length_append, List.getD_eq_getElem?_getD, List.getElem?_append_right (le_refl _)]
  simp

/-- Overwriting the byte that follows `pre ++ l` with NUL. -/
theorem set_mid (pre l : List Nat) (x : Nat) (xs : List Nat) :
    (pre ++ l ++ x :: xs).set (pre.length + l.length) 0 = pre ++ l ++ 0 :: xs := by
  simp

/-- A byte sequence either has no terminator or splits at its first one. -/
theorem eol_split (bytes : List Nat) :
    no_eol bytes ∨ ∃ l t rest, bytes = l ++ t :: rest ∧ no_eol l ∧ (t = 13 ∨ t = 10) := by
  induction bytes with
  | nil => left; intro b hb; simp at hb
  | cons a tl ih =>
    by_cases ha : a = 13 ∨ a = 10
    · right; exact ⟨[], a, tl, rfl, by intro b hb; simp at hb, ha⟩
    · rcases ih with h | ⟨l, t, rest, h1, h2, h3⟩
      · left
        intro b hb
        rcases List.mem_cons.1 hb with h' | h'
        · rw [h']; exact ha
        · exact h b h'
      · right
        refine ⟨a :: l, t, rest, by rw [h1]; rfl, ?_, h3⟩
        intro b hb
        rcases List.mem_cons.1 hb with h' | h'
        · rw [h']; exact ha
        · exact h2 b h'

/-- The scan stops at the first CR or LF at or after its start index. -/
theorem scan_found (l : List Nat) :
    ∀ (pre : List Nat) (t : Nat) (rest : List Nat) (fuel pos : Nat),
      no_eol l → (t = 13 ∨ t = 10) → pre.length + l.length < pos → pos < M64 →
      l.length < fuel →
      next_line_scan (pre ++ l ++ t :: rest) pos fuel pre.length
        = (true, pre.length + l.length) := by
  induction l with
  | nil =>
    intro pre t rest fuel pos _ ht hpos _ hf
    obtain ⟨f, rfl⟩ : ∃ f, fuel = f + 1 := ⟨fuel - 1, by simp at hf; omega⟩
    have h0 := getD_mid pre [] t rest
    simp only [List.append_nil, List.length_nil, Nat.add_zero] at h0 hpos ⊢
    rw [next_line_scan, if_pos hpos, h0, if_pos ht]
  | cons a l ih =>
    intro pre t rest fuel pos hl ht hpos hr hf
    obtain ⟨f, rfl⟩ : ∃ f, fuel = f + 1 := ⟨fuel - 1, by simp at hf; omega⟩
    have ha : ¬ (a = 13 ∨ a = 10) := hl a (List.mem_cons_self _ _)
    have hl2 : no_eol l := fun b hb => hl b (List.mem_cons_of_mem _ hb)
    have h0 : (pre ++ a :: l ++ t :: rest).getD pre.length 0 = a := by
      have := getD_mid pre [] a (l ++ t :: rest)
      simpa using this
    simp only [List.length_cons] at hpos hf
    have hlt : pre.length < pos := by omega
    rw [next_line_scan, if_pos hlt, h0, if_neg ha, uadd_eq (by omega)]
    have := ih (pre ++ [a]) t rest f pos hl2 ht (by simp; omega) hr (by omega)
    simp only [List.length_append, List.length_singleton, List.append_assoc,
      List.singleton_append, List.cons_append, List.nil_append, List.length_cons,
      List.length_nil, Nat.zero_add] at this ⊢
    rw [this]
    congr 1
    omega

/-- Without a terminator the scan runs up to `pos`. -/
theorem scan_none (l : List Nat) :
    ∀ (pre post : List Nat) (pos : Nat),
      no_eol l → pos = pre.length + l.length → pos < M64 →
      next_line_scan (pre ++ l ++ post) pos l.length pre.length = (false, pos) := by
  induction l with
  | nil =>
    intro pre post pos _ hpos _
    simp only [List.length_nil, Nat.add_zero] at hpos ⊢
    rw [next_line_scan, hpos]
  | cons a l ih =>
    intro pre post pos hl hpos hr
    have ha : ¬ (a = 13 ∨ a = 10) := hl a (List.mem_cons_self _ _)
    have hl2 : no_eol l := fun b hb => hl b (List.mem_cons_of_mem _ hb)
    have h0 : (pre ++ a :: l ++ post).getD pre.length 0 = a := by
      have := getD_mid pre [] a (l ++ post)
      simpa using this
    simp only [List.length_cons] at hpos ⊢
    have hlt : pre.length < pos := by omega
    rw [next_line_scan, if_pos hlt, h0, if_neg ha, uadd_eq (by omega)]
    have := ih (pre ++ [a]) post pos hl2 (by simp; omega) hr
    simpa using this

/-- Bytes without a terminator give no line. -/
theorem split_lines_no_eol (l : List Nat) :
    ∀ cur, no_eol l → split_lines cur l = [] := by
  induction l with
  | nil => intro cur _; rfl
  | cons a l ih =>
    intro cur hl
    have ha : ¬ (a = 13 ∨ a = 10) := hl a (List.mem_cons_self _ _)
    have hl2 : no_eol l := fun b hb => hl b (List.mem_cons_of_mem _ hb)
    cases l with
    | nil => rw [split_lines, if_neg ha]
    | cons c r =>
      have ha2 : ¬ (a = 13 ∧ c = 10) := fun h => ha (Or.inl h.1)
      rw [split_lines, if_neg ha2, if_neg ha]
      exact ih _ hl2

/-- At a terminator the current line is closed; an LF paired with a CR is dropped. -/
theorem split_lines_at_eol (cur : List Nat) (t : Nat) (rest : List Nat)
    (ht : t = 13 ∨ t = 10) :
    split_lines cur (t :: rest)
      = cur.reverse :: split_lines [] (after_pending_lf (decide (t = 13)) rest) := by
  cases rest with
  | nil =>
    rw [split_lines, if_pos ht]
    simp [after_pending_lf, split_lines]
  | cons c r =>
    by_cases h : t = 13 ∧ c = 10
    · rw [split_lines, if_pos h]
      simp [after_pending_lf, h.1, h.2]
    · rw [split_lines, if_neg h, if_pos ht]
      have : after_pending_lf (decide (t = 13)) (c :: r) = c :: r := by
        unfold after_pending_lf
        rw [if_neg]
        intro hh
        apply h
        simpa using hh
      rw [this]

/-- The first line of the reference splitting ends at the first terminator. -/
theorem split_lines_first (l : List Nat) :
    ∀ (cur : List Nat) (t : Nat) (rest : List Nat), no_eol l → (t = 13 ∨ t = 10) →
      split_lines cur (l ++ t :: rest)
        = (cur.reverse ++ l) :: split_lines [] (after_pending_lf (decide (t = 13)) rest) := by
  induction l with
  | nil =>
    intro cur t rest _ ht
    simpa using split_lines_at_eol cur t rest ht
  | cons a l ih =>
    intro cur t rest hl ht
    have ha : ¬ (a = 13 ∨ a = 10) := hl a (List.mem_cons_self _ _)
    have hl2 : no_eol l := fun b hb => hl b (List.mem_cons_of_mem _ hb)
    have step : split_lines cur (a :: l ++ t :: rest) = split_lines (a :: cur) (l ++ t :: rest) := by
      cases l with
      | nil =>
        have ha2 : ¬ (a = 13 ∧ t = 10) := fun h => ha (Or.inl h.1)
        simp only [List.cons_append, List.nil_append]
        rw [split_lines, if_neg ha2, if_neg ha]
      | cons c r =>
        have ha2 : ¬ (a = 13 ∧ c = 10) := fun h => ha (Or.inl h.1)
        simp only [List.cons_append]
        rw [split_lines, if_neg ha2, if_neg ha]
    rw [step, ih _ t rest hl2 ht]
    simp

/-- A pending LF at the head of the unconsumed bytes is absorbed. -/
theorem skip_lf_absorb (s : IBuffer) (pre r post : List Nat)
    (h : Holds s pre (10 :: r) post) (hlc : s.last_cr = true) :
    i_buffer_skip_lf s =
      { s with cr_lookup_pos := pre.length + 1, skip := pre.length + 1,
               v_offset := uadd s.v_offset 1, last_cr := false } ∧
    Holds (i_buffer_skip_lf s) (pre ++ [10]) r post := by
  obtain ⟨hb, hs, hc, hp, hw, hr⟩ := h
  simp only [List.length_cons] at hp
  have hcond : ¬ ((!s.last_cr) = true ∨ s.skip ≥ s.pos) := by
    rw [hlc]; simp; omega
  have h10 : s.buffer.getD s.skip 0 = 10 := by
    rw [hb, hs]
    have := getD_mid pre [] 10 (r ++ post)
    simpa using this
  have e : i_buffer_skip_lf s =
      { s with cr_lookup_pos := pre.length + 1, skip := pre.length + 1,
               v_offset := uadd s.v_offset 1, last_cr := false } := by
    have he : uadd pre.length 1 = pre.length + 1 := uadd_eq (by omega)
    rw [i_buffer_skip_lf, if_neg hcond, if_pos h10, if_pos (by rw [hs, hc]), hc, hs, he]
  refine ⟨e, ?_⟩
  rw [e]
  exact ⟨by simp [hb], by simp, by simp, by simp [hp]; omega, hw, hr⟩

/-- Without a pending LF to absorb, `i_buffer_skip_lf` changes at most `last_cr`. -/
theorem skip_lf_keep (s : IBuffer) (pre bytes post : List Nat)
    (h : Holds s pre bytes post) (hno : ¬ (s.last_cr = true ∧ bytes.head? = some 10)) :
    (i_buffer_skip_lf s = s ∨ i_buffer_skip_lf s = { s with last_cr := false }) ∧
    (bytes ≠ [] → i_buffer_skip_lf s = { s with last_cr := false }) ∧
    Holds (i_buffer_skip_lf s) pre bytes post := by
  obtain ⟨hb, hs, hc, hp, hw, hr⟩ := h
  by_cases hcond : (!s.last_cr) = true ∨ s.skip ≥ s.pos
  · have e : i_buffer_skip_lf s = s := by rw [i_buffer_skip_lf, if_pos hcond]
    rw [e]
    refine ⟨Or.inl rfl, ?_, ⟨hb, hs, hc, hp, hw, hr⟩⟩
    intro hne
    rcases hcond with h1 | h1
    · have : s.last_cr = false := by simpa using h1
      cases s; simp_all
    · exfalso
      have : 0 < bytes.length := List.length_pos.2 hne
      omega
  · have hlc : s.last_cr = true := by
      by_contra hh
      exact hcond (Or.inl (by simpa using hh))
    have hlt : s.skip < s.pos := by omega
    have hne : bytes ≠ [] := by
      intro h0; rw [h0] at hp; simp at hp; omega
    obtain ⟨b, r, rfl⟩ : ∃ b r, bytes = b :: r := List.exists_cons_of_ne_nil hne
    have hb10 : b ≠ 10 := by
      intro h10; exact hno ⟨hlc, by simp [h10]⟩
    have hg : s.buffer.getD s.skip 0 = b := by
      rw [hb, hs]
      have := getD_mid pre [] b (r ++ post)
      simpa using this
    have e : i_buffer_skip_lf s = { s with last_cr := false } := by
      rw [i_buffer_skip_lf, if_neg hcond, hg, if_neg hb10]
    rw [e]
    exact ⟨Or.inr rfl, fun _ => rfl, ⟨hb, hs, hc, hp, hw, hr⟩⟩

/-- After `i_buffer_skip_lf` the record holds the bytes left by `after_pending_lf`. -/
theorem skip_lf_holds (s : IBuffer) (pre bytes post : List Nat)
    (h : Holds s pre bytes post) :
    ∃ pre1, Holds (i_buffer_skip_lf s) pre1 (after_pending_lf s.last_cr bytes) post := by
  by_cases hc : s.last_cr = true ∧ bytes.head? = some 10
  · obtain ⟨hlc, hh⟩ := hc
    obtain ⟨r, rfl⟩ : ∃ r, bytes = 10 :: r := by
      cases bytes with
      | nil => simp at hh
      | cons b r => simp at hh; exact ⟨r, by rw [hh]⟩
    refine ⟨pre ++ [10], ?_⟩
    have : after_pending_lf s.last_cr (10 :: r) = r := by simp [after_pending_lf, hlc]
    rw [this]
    exact (skip_lf_absorb s pre r post h hlc).2
  · refine ⟨pre, ?_⟩
    have : after_pending_lf s.last_cr bytes = bytes := by
      unfold after_pending_lf; rw [if_neg hc]
    rw [this]
    exact (skip_lf_keep s pre bytes post h hc).2.2

/-- The result of `i_buffer_next_line` when the bytes left after the pending LF
start with a line `l` ended by the terminator `t`. -/
theorem next_line_some_of (s : IBuffer) (pre l : List Nat) (t : Nat) (rest post : List Nat)
    (h : Holds (i_buffer_skip_lf s) pre (l ++ t :: rest) post) (hl : no_eol l)
    (ht : t = 13 ∨ t = 10) :
    i_buffer_next_line s =
      (some pre.length,
        { i_buffer_skip_lf s with
          last_cr := decide (t = 13)
          buffer := pre ++ l ++ 0 :: rest ++ post
          v_offset := uadd (i_buffer_skip_lf s).v_offset (l.length + 1)
          skip := pre.length + l.length + 1
          cr_lookup_pos := pre.length + l.length + 1 }) := by
  unfold i_buffer_next_line
  generalize i_buffer_skip_lf s = s1 at h ⊢
  obtain ⟨hb, hs, hc, hp, hw, hr⟩ := h
  simp only [List.length_append, List.length_cons] at hp
  have hb2 : s1.buffer = pre ++ l ++ t :: (rest ++ post) := by rw [hb]; simp
  have h1 : ¬ s1.skip ≥ s1.pos := by omega
  have hscan : next_line_scan s1.buffer s1.pos (s1.pos - s1.cr_lookup_pos) s1.cr_lookup_pos
      = (true, pre.length + l.length) := by
    rw [hb2, hc]
    exact scan_found l pre t (rest ++ post) _ _ hl ht (by omega) hr (by omega)
  have hi1 : uadd (pre.length + l.length) 1 = pre.length + l.length + 1 := uadd_eq (by omega)
  have hsub : usub (pre.length + l.length + 1) pre.length = l.length + 1 := by
    rw [usub_eq (by omega) (by omega)]; omega
  have hget : s1.buffer.getD (pre.length + l.length) 0 = t := by
    rw [hb2]; exact getD_mid pre l t _
  have hset : s1.buffer.set (pre.length + l.length) 0 = pre ++ l ++ 0 :: rest ++ post := by
    rw [hb2, set_mid]; simp
  have h1b : ¬ pre.length ≥ s1.pos := by omega
  simp only [if_neg h1, hw, Bool.not_true, Bool.false_eq_true, if_false, hscan, hi1, hs, hsub,
    hget, hset, if_neg h1b]

/-- The result of `i_buffer_next_line` when no terminator is buffered. -/
theorem next_line_none_of (s : IBuffer) (pre l post : List Nat)
    (h : Holds (i_buffer_skip_lf s) pre l post) (hl : no_eol l) :
    i_buffer_next_line s =
      (none, { i_buffer_skip_lf s with cr_lookup_pos := (i_buffer_skip_lf s).pos }) := by
  unfold i_buffer_next_line
  generalize i_buffer_skip_lf s = s1 at h ⊢
  obtain ⟨hb, hs, hc, hp, hw, hr⟩ := h
  by_cases h1 : s1.skip ≥ s1.pos
  · have : s1.cr_lookup_pos = s1.pos := by omega
    simp only [if_pos h1]
    cases s1
    simp only at this
    subst this
    rfl
  · have hscan : next_line_scan s1.buffer s1.pos (s1.pos - s1.cr_lookup_pos) s1.cr_lookup_pos
        = (false, s1.pos) := by
      rw [hb, hc, hp]
      have := scan_none l pre post (pre.length + l.length) hl rfl (by omega)
      simpa using this
    simp only [if_neg h1, hw, Bool.not_true, Bool.false_eq_true, if_false, hscan]

/-- Absorbing a pending LF never lengthens the data. -/
theorem after_pending_lf_length (lc : Bool) (bytes : List Nat) :
    (after_pending_lf lc bytes).length ≤ bytes.length := by
  unfold after_pending_lf
  split_ifs
  · simp
  · exact le_refl _

/-- The line observed at the returned pointer. -/
theorem line_at_mid (s : IBuffer) (pre l rest : List Nat)
    (hb : s.buffer = pre ++ l ++ 0 :: rest) (hs : s.skip = pre.length + l.length + 1) :
    line_at s pre.length = l := by
  unfold line_at
  rw [hb, hs, List.append_assoc, List.drop_left]
  have : pre.length + l.length + 1 - 1 - pre.length = l.length := by omega
  rw [this, List.take_left]

/-- Up to the first NUL. -/
theorem takeWhile_nul (l rest : List Nat) (hl : ∀ b ∈ l, b ≠ 0) :
    (l ++ 0 :: rest).takeWhile (fun b => decide (b ≠ 0)) = l := by
  induction l with
  | nil => simp
  | cons a l ih =>
    have ha : a ≠ 0 := hl a (List.mem_cons_self _ _)
    have := ih (fun b hb => hl b (List.mem_cons_of_mem _ hb))
    rw [List.cons_append, List.takeWhile_cons, this]
    simp [ha]

/-- When the returned line holds no NUL byte, the C string at the returned
pointer is that line: both readings of the result of `i_buffer_next_line` agree. -/
theorem next_line_cstring (s : IBuffer) (pre l : List Nat) (t : Nat) (rest post : List Nat)
    (h : Holds (i_buffer_skip_lf s) pre (l ++ t :: rest) post) (hl : no_eol l)
    (ht : t = 13 ∨ t = 10) (hnul : ∀ b ∈ l, b ≠ 0) :
    (i_buffer_next_line s).1 = some pre.length ∧
    line_at (i_buffer_next_line s).2 pre.length = l ∧
    cstring_at (i_buffer_next_line s).2 pre.length = l := by
  rw [next_line_some_of s pre l t rest post h hl ht]
  refine ⟨rfl, line_at_mid _ pre l (rest ++ post) (by simp) rfl, ?_⟩
  show ((pre ++ l ++ 0 :: rest ++ post).drop pre.length).takeWhile _ = l
  have : pre ++ l ++ 0 :: rest ++ post = pre ++ (l ++ 0 :: (rest ++ post)) := by simp
  rw [this, List.drop_left]
  exact takeWhile_nul l _ hnul

/-- Repeated `i_buffer_next_line` agrees with the reference splitting, for any
value of `last_cr` at the start. -/
theorem next_lines_split (fuel : Nat) :
    ∀ (bytes : List Nat) (s : IBuffer) (pre post : List Nat),
      Holds s pre bytes post → bytes.length < fuel →
      next_lines fuel s = some (split_lines [] (after_pending_lf s.last_cr bytes)) := by
  induction fuel with
  | zero => intro bytes s pre post _ hf; omega
  | succ f ih =>
    intro bytes s pre post h hf
    obtain ⟨pre1, h1⟩ := skip_lf_holds s pre bytes post h
    have hlen := after_pending_lf_length s.last_cr bytes
    rcases eol_split (after_pending_lf s.last_cr bytes) with hn | ⟨l, t, rest, hb, hl, ht⟩
    · rw [next_lines, next_line_none_of s pre1 _ post h1 hn, split_lines_no_eol _ _ hn]
    · rw [hb] at h1 hlen
      rw [next_lines, next_line_some_of s pre1 l t rest post h1 hl ht, hb,
        split_lines_first l [] t rest hl ht]
      simp only [List.length_append, List.length_cons] at hlen
      obtain ⟨hb1, hs1, hc1, hp1, hw1, hr1⟩ := h1
      simp only [List.length_append, List.length_cons] at hp1
      have h2 : Holds
          { i_buffer_skip_lf s with
            last_cr := decide (t = 13)
            buffer := pre1 ++ l ++ 0 :: rest ++ post
            v_offset := uadd (i_buffer_skip_lf s).v_offset (l.length + 1)
            skip := pre1.length + l.length + 1
            cr_lookup_pos := pre1.length + l.length + 1 }
          (pre1 ++ l ++ [0]) rest post :=
        ⟨by simp, by simp; omega, by simp; omega, by simp [hp1]; omega, hw1, hr1⟩
      have hrec := ih rest _ _ post h2 (by omega)
      simp only at hrec ⊢
      rw [hrec]
      have hline := line_at_mid
        { i_buffer_skip_lf s with
            last_cr := decide (t = 13)
            buffer := pre1 ++ l ++ 0 :: rest ++ post
            v_offset := uadd (i_buffer_skip_lf s).v_offset (l.length + 1)
            skip := pre1.length + l.length + 1
            cr_lookup_pos := pre1.length + l.length + 1 }
        pre1 l (rest ++ post) (by simp) rfl
      simp only [Option.map_some', List.reverse_nil, List.nil_append]
      rw [hline]

/-- One `i_buffer_next_line` returns the first line of the reference splitting. -/
theorem next_line_first_of (s : IBuffer) (pre bytes post : List Nat)
    (h : Holds (i_buffer_skip_lf s) pre bytes post) :
    (i_buffer_next_line s).1.map (line_at (i_buffer_next_line s).2)
      = (split_lines [] bytes).head? := by
  rcases eol_split bytes with hn | ⟨l, t, rest, hb, hl, ht⟩
  · rw [next_line_none_of s pre bytes post h hn, split_lines_no_eol _ _ hn]
    rfl
  · subst hb
    rw [next_line_some_of s pre l t rest post h hl ht, split_lines_first l [] t rest hl ht]
    simp only [Option.map_some', List.reverse_nil, List.nil_append, List.head?_cons]
    rw [line_at_mid _ pre l (rest ++ post) (by simp) rfl]

/-- The three possible effects of `i_buffer_skip_lf`. -/
theorem skip_lf_cases (s : IBuffer) :
    i_buffer_skip_lf s = s ∨
    (i_buffer_skip_lf s = { s with last_cr := false }) ∨
    (s.skip < s.pos ∧ ∃ c, i_buffer_skip_lf s =
      { s with last_cr := false, skip := uadd s.skip 1, v_offset := uadd s.v_offset 1,
               cr_lookup_pos := c }) := by
  unfold i_buffer_skip_lf
  by_cases h : (!s.last_cr) = true ∨ s.skip ≥ s.pos
  · left; rw [if_pos h]
  · rw [if_neg h]
    right
    by_cases h10 : s.buffer.getD s.skip 0 = 10
    · right
      rw [if_pos h10]
      exact ⟨by omega, _, rfl⟩
    · left; rw [if_neg h10]

/-! ## Line reading -/

/-- Claim C1: a writable buffer holds `bytes` as its unconsumed data with a fresh
scan state (`cr_lookup_pos = skip`, `last_cr = false`).  Calling
`i_buffer_next_line` until it returns NULL ends within `bytes.length + 1` calls
and yields, in order, exactly the lines of `split_lines`: CR LF, a lone CR and
a lone LF each end one line and an unterminated tail is not returned. -/
theorem next_line_yields_split_lines (s : IBuffer) (pre bytes post : List Nat) (fuel : Nat)
    (hbuf : s.buffer = pre ++ bytes ++ post) (hskip : s.skip = pre.length)
    (hpos : s.pos = pre.length + bytes.length) (hrange : s.pos < M64)
    (hw : s.w_buffer = true) (hcr : s.cr_lookup_pos = s.skip) (hlc : s.last_cr = false)
    (hfuel : bytes.length < fuel) :
    next_lines fuel s = some (split_lines [] bytes) := by
  have h : Holds s pre bytes post := ⟨hbuf, hskip, by rw [hcr, hskip], hpos, hw, hrange⟩
  have := next_lines_split fuel bytes s pre post h hfuel
  rw [this, hlc]
  simp [after_pending_lf]

/-- Claim C1 at the buffer "A" CR LF "B" LF: the calls yield "A", then "B", then
NULL, with no empty line for the swallowed LF. -/
theorem next_line_yields_split_lines_witness :
    next_lines 6 st_crlf = some [[65], [66]] :=
  next_line_yields_split_lines st_crlf [] [65, 13, 10, 66, 10] [] 6 (by decide) (by decide)
    (by decide) (by decide) (by decide) (by decide) (by decide) (by decide)

/-! ## Reading up to a threshold -/

/-- Claim C2: evaluation of `i_buffer_read_data` with threshold 0 on the record
`st_pending_lf`, which is reached from "A" CR by one `i_buffer_next_line` and a
read that stored the paired LF.  Whatever the backend, the loop ends at once
with `ret = 0` and no read, the LF is swallowed, and the call returns -1 with
size 0 although no end of stream was signalled. -/
theorem read_data_eof_without_read (be : Backend) :
    read_appends (i_buffer_next_line st_cr).2 [10] [] = st_pending_lf ∧
    i_buffer_read_data_loop be 0 1 0 st_pending_lf = some (0, st_pending_lf) ∧
    i_buffer_read_data be 1 st_pending_lf 0 =
      some (-1, none, 0,
        { st_pending_lf with skip := 3, v_offset := 3, cr_lookup_pos := 3, last_cr := false }) :=
  ⟨by decide, rfl, rfl⟩

/-- The last of `n + 1` reads from `s` is the first read when `n = 0`, and
otherwise the last of `n` reads from the record after the first read. -/
theorem last_read_succ (be : Backend) (n : Nat) (s : IBuffer) :
    last_read be (n + 1) s = if n = 0 then (be.read s).1 else last_read be n (be.read s).2 := by
  unfold last_read
  cases n with
  | zero => rfl
  | succ m =>
    simp only [Nat.add_one_ne_zero, if_false, Nat.add_sub_cancel]
    rfl

/-- A loop that stops after `n + 1` reads finds at most `threshold` bytes, reads
once, and then either has stopped on a negative result or goes on to stop after
`n` further reads. -/
theorem loop_stops_after_succ (be : Backend) (threshold n : Nat) (s : IBuffer) :
    loop_stops_after be threshold (n + 1) s ↔
      usub s.pos s.skip ≤ threshold ∧
      ((n = 0 ∧ (be.read s).1 < 0) ∨
       (0 ≤ (be.read s).1 ∧ loop_stops_after be threshold n (be.read s).2)) := by
  unfold loop_stops_after
  constructor
  · rintro ⟨h1, h2, h3⟩
    refine ⟨h1 0 (by omega), ?_⟩
    by_cases hn : n = 0
    · subst hn
      by_cases hneg : (be.read s).1 < 0
      · exact Or.inl ⟨rfl, hneg⟩
      · right
        refine ⟨by omega, fun k hk => by omega, fun k hk => by omega, ?_⟩
        rcases h3 with ⟨_, h⟩ | h
        · exact absurd h hneg
        · exact Or.inr h
    · right
      refine ⟨h2 0 (by omega) (by omega), fun k hk => h1 (k + 1) (by omega),
        fun k hk hk2 => h2 (k + 1) (by omega) (by omega), ?_⟩
      rcases h3 with ⟨_, h⟩ | h
      · left
        rw [last_read_succ, if_neg hn] at h
        exact ⟨by omega, h⟩
      · exact Or.inr h
  · rintro ⟨h0, h | ⟨hpos, h1, h2, h3⟩⟩
    · obtain ⟨hn, hneg⟩ := h
      subst hn
      refine ⟨fun k hk => ?_, fun k hk hk2 => by omega, Or.inl ⟨by omega, hneg⟩⟩
      have : k = 0 := by omega
      subst this
      exact h0
    · refine ⟨fun k hk => ?_, fun k hk hk2 => ?_, ?_⟩
      · cases k with
        | zero => exact h0
        | succ j => exact h1 j (by omega)
      · cases k with
        | zero => exact hpos
        | succ j => exact h2 j (by omega) (by omega)
      · rcases h3 with ⟨hn, h⟩ | h
        · left
          refine ⟨by omega, ?_⟩
          rw [last_read_succ, if_neg (by omega)]
          exact h
        · exact Or.inr h

/-- The value of `ret` after `n + 1` reads, in terms of the first read and the
reads that follow it. -/
theorem ret_after_succ (be : Backend) (n : Nat) (ret : Int) (s : IBuffer) :
    (if n + 1 = 0 then ret else last_read be (n + 1) s)
      = if n = 0 then (be.read s).1 else last_read be n (be.read s).2 := by
  rw [if_neg (by omega), last_read_succ]

/-- Whenever the bounded loop returns, the loop has stopped after some number `n`
of reads within the bound, and the loop returns the record after those reads
and the result of the last of them (the incoming `ret` when no read was made). -/
theorem read_data_loop_sound (be : Backend) (threshold : Nat) :
    ∀ (fuel : Nat) (ret : Int) (s : IBuffer) (r : Int) (s1 : IBuffer),
      i_buffer_read_data_loop be threshold fuel ret s = some (r, s1) →
        ∃ n, n ≤ fuel ∧ loop_stops_after be threshold n s ∧ s1 = after_reads be n s ∧
          r = if n = 0 then ret else last_read be n s := by
  intro fuel
  induction fuel with
  | zero =>
    intro ret s r s1 h
    simp [i_buffer_read_data_loop] at h
  | succ f ih =>
    intro ret s r s1 h
    rw [i_buffer_read_data_loop] at h
    by_cases hc : usub s.pos s.skip ≤ threshold
    · rw [if_pos hc] at h
      simp only at h
      by_cases hneg : (be.read s).1 < 0
      · rw [if_pos hneg] at h
        have e := Option.some.inj h
        exact ⟨1, by omega, (loop_stops_after_succ be threshold 0 s).2
          ⟨hc, Or.inl ⟨rfl, hneg⟩⟩, (congrArg Prod.snd e).symm, (congrArg Prod.fst e).symm⟩
      · rw [if_neg hneg] at h
        obtain ⟨n, hn, hst, hs1, hr⟩ := ih (be.read s).1 (be.read s).2 r s1 h
        refine ⟨n + 1, by omega, (loop_stops_after_succ be threshold n s).2
          ⟨hc, Or.inr ⟨by omega, hst⟩⟩, hs1, ?_⟩
        rw [ret_after_succ]
        exact hr
    · rw [if_neg hc] at h
      have e := Option.some.inj h
      have hgt : threshold < usub s.pos s.skip := by omega
      exact ⟨0, by omega, ⟨fun k hk => by omega, fun k hk => by omega, Or.inr hgt⟩,
        (congrArg Prod.snd e).symm, (congrArg Prod.fst e).symm⟩

/-- When the loop stops after `n` reads, every bound above `n` makes the bounded
loop return the record after those reads and the result of the last of them. -/
theorem read_data_loop_complete (be : Backend) (threshold : Nat) :
    ∀ (fuel : Nat) (ret : Int) (s : IBuffer) (n : Nat),
      n < fuel → loop_stops_after be threshold n s →
        i_buffer_read_data_loop be threshold fuel ret s =
          some (if n = 0 then ret else last_read be n s, after_reads be n s) := by
  intro fuel
  induction fuel with
  | zero => intro ret s n hn; omega
  | succ f ih =>
    intro ret s n hn hst
    rw [i_buffer_read_data_loop]
    cases n with
    | zero =>
      have hc : ¬ usub s.pos s.skip ≤ threshold := by
        rcases hst.2.2 with ⟨h, _⟩ | h
        · omega
        · have h2 : threshold < usub s.pos s.skip := h
          omega
      rw [if_neg hc]
      rfl
    | succ m =>
      obtain ⟨hc, h⟩ := (loop_stops_after_succ be threshold m s).1 hst
      rw [if_pos hc, ret_after_succ]
      simp only
      rcases h with ⟨hm, hneg⟩ | ⟨hpos, hst2⟩
      · subst hm
        rw [if_pos hneg]
        rfl
      · have hnn : ¬ (be.read s).1 < 0 := by omega
        rw [if_neg hnn, ih (be.read s).1 (be.read s).2 m (by omega) hst2]
        rfl

/-- Claim C3: whenever the read loop of `i_buffer_read_data` ends, that is, stops
after some number `n` of backend reads, every bound above `n` makes the call
return, with the size reported by `i_buffer_get_data` on the record after those
reads; with `ret` the result of the backend's last read (0 when none was made),
the status is 1 exactly when that size exceeds the threshold, and otherwise it
is -2 when `ret = -2`, else 0 when the size is positive, else -1.  Any bound
under which the call returns gives this same result. -/
theorem read_data_status (be : Backend) (s : IBuffer) (threshold n fuel : Nat)
    (hstop : loop_stops_after be threshold n s) (hfuel : n < fuel) :
    (∃ status data size s2,
      i_buffer_read_data be fuel s threshold = some (status, data, size, s2) ∧
      i_buffer_get_data (after_reads be n s) = (data, size, s2) ∧
      (status = 1 ↔ size > threshold) ∧
      (size ≤ threshold → last_read be n s = -2 → status = -2) ∧
      (size ≤ threshold → last_read be n s ≠ -2 → size > 0 → status = 0) ∧
      (size ≤ threshold → last_read be n s ≠ -2 → size = 0 → status = -1)) ∧
    (∀ bound res, i_buffer_read_data be bound s threshold = some res →
      i_buffer_read_data be fuel s threshold = some res) := by
  have hlast : (if n = 0 then (0 : Int) else last_read be n s) = last_read be n s := by
    unfold last_read
    split_ifs <;> rfl
  have hloop : ∀ bound, n < bound →
      i_buffer_read_data_loop be threshold bound 0 s
        = some (last_read be n s, after_reads be n s) := by
    intro bound hb
    rw [read_data_loop_complete be threshold bound 0 s n hb hstop, hlast]
  constructor
  · rcases hr : i_buffer_get_data (after_reads be n s) with ⟨data, size, s2⟩
    refine ⟨if size > threshold then 1 else if last_read be n s = -2 then -2
        else if size > 0 then 0 else -1, data, size, s2, ?_, rfl, ?_, ?_, ?_, ?_⟩
    · simp only [i_buffer_read_data, hloop fuel hfuel, hr]
    · constructor
      · intro h
        by_contra hn
        rw [if_neg hn] at h
        split_ifs at h
        omega
      · intro h
        rw [if_pos h]
    · intro h hret
      rw [if_neg (by omega), if_pos hret]
    · intro h hret hp
      rw [if_neg (by omega), if_neg hret, if_pos hp]
    · intro h hret hp
      rw [if_neg (by omega), if_neg hret, if_neg (by omega)]
  · intro bound res h
    rcases hl : i_buffer_read_data_loop be threshold bound 0 s with _ | ⟨r, s1⟩
    · simp [i_buffer_read_data, hl] at h
    · obtain ⟨m, hm, hst, hs1, hrr⟩ := read_data_loop_sound be threshold bound 0 s r s1 hl
      have h2 := read_data_loop_complete be threshold (m + n + 1) 0 s m (by omega) hst
      have h3 := hloop (m + n + 1) (by omega)
      rw [h3] at h2
      have e := Option.some.inj h2
      have e1 : last_read be n s = r := by rw [hrr]; exact congrArg Prod.fst e
      have e2 : after_reads be n s = s1 := by rw [hs1]; exact congrArg Prod.snd e
      rw [← h]
      simp only [i_buffer_read_data, hl, hloop fuel hfuel, e1, e2]

/-- Claim C3 with a backend whose buffer is full (one read returning -2, status
-2 with 3 bytes against threshold 5) and, by evaluation, with a backend that
delivers one byte per read (two reads, status 1 with 5 bytes against
threshold 4). -/
theorem read_data_status_witness :
    (loop_stops_after be_full 5 1 st_rebase ∧
      i_buffer_read_data be_full 2 st_rebase 5 = some (-2, some 2, 3, st_rebase)) ∧
    (loop_stops_after be_feed 4 2 st_rebase ∧
      i_buffer_read_data be_feed 3 st_rebase 4 =
        some (1, some 2, 5, { st_rebase with buffer := [1, 2, 65, 66, 67, 66, 66], pos := 7 })) ∧
    ((∃ status data size s2,
      i_buffer_read_data be_full 2 st_rebase 5 = some (status, data, size, s2) ∧
      i_buffer_get_data (after_reads be_full 1 st_rebase) = (data, size, s2) ∧
      (status = 1 ↔ size > 5) ∧
      (size ≤ 5 → last_read be_full 1 st_rebase = -2 → status = -2) ∧
      (size ≤ 5 → last_read be_full 1 st_rebase ≠ -2 → size > 0 → status = 0) ∧
      (size ≤ 5 → last_read be_full 1 st_rebase ≠ -2 → size = 0 → status = -1)) ∧
    (∀ bound res, i_buffer_read_data be_full bound st_rebase 5 = some res →
      i_buffer_read_data be_full 2 st_rebase 5 = some res)) :=
  ⟨by decide, by decide, read_data_status be_full st_rebase 5 1 2 (by decide) (by decide)⟩

/-! ## The read limit -/

/-- Claim C4: for a limit `L ≠ 0` with `v_offset ≤ L ≤ v_size`,
`i_buffer_set_read_limit` succeeds and the `i_buffer_get_data` that follows
reports `n` bytes with `v_offset + n ≤ L` for the `v_offset` it leaves: no byte
at a logical offset `≥ L` is exposed, however many bytes were buffered. -/
theorem read_limit_then_get_data (s : IBuffer) (L : Nat) (hs : s.inRange)
    (hL : L ≠ 0) (hlo : s.v_offset ≤ L) (hhi : L ≤ s.v_size) :
    ∃ s1, i_buffer_set_read_limit s L = some s1 ∧ s1.v_limit = L ∧
      (i_buffer_get_data s1).2.2.v_offset + (i_buffer_get_data s1).2.1 ≤ L := by
  obtain ⟨_, h2, h3, h4, h5, h6, _⟩ := hs
  have hge : L ≥ s.v_offset := hlo
  simp only [i_buffer_set_read_limit, if_pos hhi, if_neg hL, if_pos hge]
  split_ifs with hgt
  · refine ⟨_, rfl, rfl, ?_⟩
    rcases skip_lf_cases { s with v_limit := L, pos := uadd (usub L s.v_offset) s.skip }
      with h | h | ⟨hlt, c, h⟩ <;>
    · simp only [i_buffer_get_data, h]
      split_ifs <;> simp only [usub, uadd, M64] at * <;> omega
  · refine ⟨_, rfl, rfl, ?_⟩
    rcases skip_lf_cases { s with v_limit := L } with h | h | ⟨hlt, c, h⟩ <;>
    · simp only [i_buffer_get_data, h]
      split_ifs <;> simp only [usub, uadd, M64] at * <;> omega

/-- Claim C4 at the record `st_window` (ten bytes buffered from offset 100) and
the limit 104. -/
theorem read_limit_then_get_data_witness :
    st_window.inRange ∧ 104 ≠ 0 ∧ st_window.v_offset ≤ 104 ∧ 104 ≤ st_window.v_size ∧
    ∃ s1, i_buffer_set_read_limit st_window 104 = some s1 ∧ s1.v_limit = 104 ∧
      (i_buffer_get_data s1).2.2.v_offset + (i_buffer_get_data s1).2.1 ≤ 104 :=
  ⟨by decide, by decide, by decide, by decide,
    read_limit_then_get_data st_window 104 (by decide) (by decide) (by decide) (by decide)⟩

/-! ## A CR LF pair split across two reads -/

/-- Claim C5: a writable buffer holds exactly `X`, free of CR and LF, followed by
a lone CR, with a fresh scan state.  `i_buffer_next_line` returns `X` and leaves
`last_cr` set with nothing buffered.  Once a read has stored LF followed by `Y`
behind the buffered bytes, the next access swallows that LF: `skip` advances by
one and `v_offset` by one (modulo `2^64`), `i_buffer_get_data` reports exactly
`Y`, and `i_buffer_next_line` returns the first line of `Y` (NULL when `Y` has
none), never an empty line for the LF. -/
theorem lone_cr_then_lf (s : IBuffer) (pre X post Y slack : List Nat)
    (hX : no_eol X)
    (hbuf : s.buffer = pre ++ (X ++ [13]) ++ post) (hskip : s.skip = pre.length)
    (hpos : s.pos = pre.length + (X ++ [13]).length)
    (hrange : s.pos + (10 :: Y).length < M64)
    (hw : s.w_buffer = true) (hcr : s.cr_lookup_pos = s.skip) (hlc : s.last_cr = false) :
    ∃ s1, i_buffer_next_line s = (some pre.length, s1) ∧ line_at s1 pre.length = X ∧
      s1.last_cr = true ∧ s1.skip = s.pos ∧ s1.pos = s.pos ∧
      (i_buffer_skip_lf (read_appends s1 (10 :: Y) slack)).skip = s1.skip + 1 ∧
      (i_buffer_skip_lf (read_appends s1 (10 :: Y) slack)).v_offset = (s1.v_offset + 1) % M64 ∧
      i_buffer_get_data (read_appends s1 (10 :: Y) slack) =
        (if Y = [] then none else some (s1.skip + 1), Y.length,
          i_buffer_skip_lf (read_appends s1 (10 :: Y) slack)) ∧
      ((i_buffer_skip_lf (read_appends s1 (10 :: Y) slack)).buffer.drop (s1.skip + 1)).take
          Y.length = Y ∧
      (i_buffer_next_line (read_appends s1 (10 :: Y) slack)).1.map
          (line_at (i_buffer_next_line (read_appends s1 (10 :: Y) slack)).2)
        = (split_lines [] Y).head? := by
  simp only [List.length_append, List.length_cons, List.length_nil, Nat.zero_add] at hpos hrange
  have h0 : Holds s pre (X ++ 13 :: []) post :=
    ⟨hbuf, hskip, by rw [hcr, hskip], by simp [hpos], hw, by omega⟩
  have hk : i_buffer_skip_lf s = s := by
    rw [i_buffer_skip_lf, if_pos (Or.inl (by simp [hlc]))]
  have h0b : Holds (i_buffer_skip_lf s) pre (X ++ 13 :: []) post := by rw [hk]; exact h0
  have hnl := next_line_some_of s pre X 13 [] post h0b hX (Or.inl rfl)
  rw [hk] at hnl
  refine ⟨_, hnl, ?_, rfl, ?_, rfl, ?_⟩
  · exact line_at_mid _ pre X ([] ++ post) (by simp) rfl
  · show pre.length + X.length + 1 = s.pos
    omega
  · have h2 : Holds (read_appends
          { s with
            last_cr := decide (13 = 13)
            buffer := pre ++ X ++ 0 :: [] ++ post
            v_offset := uadd s.v_offset (X.length + 1)
            skip := pre.length + X.length + 1
            cr_lookup_pos := pre.length + X.length + 1 } (10 :: Y) slack)
        (pre ++ X ++ [0]) (10 :: Y) slack := by
      refine ⟨?_, by simp [read_appends]; omega, by simp [read_appends]; omega, ?_, hw, ?_⟩
      · simp only [read_appends, hpos]
        have : (pre ++ X ++ [0] ++ post).take (pre.length + (X.length + 1)) = pre ++ X ++ [0] := by
          have hlen : (pre ++ X ++ [0]).length = pre.length + (X.length + 1) := by simp
          rw [← hlen, List.take_left]
        rw [this]
      · simp [read_appends, hpos]
      · simp only [read_appends, List.length_cons]; omega
    obtain ⟨he, h3⟩ := skip_lf_absorb _ (pre ++ X ++ [0]) Y slack h2 rfl
    generalize hs2 : read_appends
          { s with
            last_cr := decide (13 = 13)
            buffer := pre ++ X ++ 0 :: [] ++ post
            v_offset := uadd s.v_offset (X.length + 1)
            skip := pre.length + X.length + 1
            cr_lookup_pos := pre.length + X.length + 1 } (10 :: Y) slack = s2 at h2 he h3 ⊢
    have hs2v : s2.v_offset = uadd s.v_offset (X.length + 1) := by rw [← hs2]; rfl
    have hlen : (pre ++ X ++ [0]).length = pre.length + X.length + 1 := by simp; omega
    refine ⟨?_, ?_, ?_, ?_, ?_⟩
    · rw [h3.skip]; simp; omega
    · rw [he]; show uadd s2.v_offset 1 = _; rw [hs2v]; rfl
    · unfold i_buffer_get_data
      obtain ⟨hb3, hs3, hc3, hp3, hw3, hr3⟩ := h3
      by_cases hY : Y = []
      · subst hY
        simp only [List.length_nil, Nat.add_zero] at hp3
        rw [if_pos (by omega)]
        simp
      · have : 0 < Y.length := List.length_pos.2 hY
        rw [if_neg (by omega), if_neg hY, hs3, hp3, usub_eq (by omega) (by omega)]
        simp
        omega
    · have hlen2 : (pre ++ X ++ [0] ++ [10]).length = pre.length + X.length + 1 + 1 := by
        simp; omega
      rw [h3.buf, ← hlen2, List.append_assoc (pre ++ X ++ [0] ++ [10]) Y slack, List.drop_left,
        List.take_left]
    · exact next_line_first_of s2 _ Y slack h3

/-- Claim C5 at `X` = "A", `Y` = "B" LF: after "A" CR the read stores LF "B" LF. -/
theorem lone_cr_then_lf_witness :
    ∃ s1, i_buffer_next_line st_cr = (some 0, s1) ∧ line_at s1 0 = [65] ∧
      s1.last_cr = true ∧ s1.skip = st_cr.pos ∧ s1.pos = st_cr.pos ∧
      (i_buffer_skip_lf (read_appends s1 (10 :: [66, 10]) [])).skip = s1.skip + 1 ∧
      (i_buffer_skip_lf (read_appends s1 (10 :: [66, 10]) [])).v_offset
        = (s1.v_offset + 1) % M64 ∧
      i_buffer_get_data (read_appends s1 (10 :: [66, 10]) []) =
        (if [66, 10] = [] then none else some (s1.skip + 1), [66, 10].length,
          i_buffer_skip_lf (read_appends s1 (10 :: [66, 10]) [])) ∧
      ((i_buffer_skip_lf (read_appends s1 (10 :: [66, 10]) [])).buffer.drop (s1.skip + 1)).take
          [66, 10].length = [66, 10] ∧
      (i_buffer_next_line (read_appends s1 (10 :: [66, 10]) [])).1.map
          (line_at (i_buffer_next_line (read_appends s1 (10 :: [66, 10]) [])).2)
        = (split_lines [] [66, 10]).head? :=
  lone_cr_then_lf st_cr [] [65] [] [66, 10] [] (by decide) (by decide) (by decide) (by decide)
    (by decide) (by decide) (by decide) (by decide)

/-! ## Skipping -/

/-- Claim C6, as stated, fails at `st_limit5`: the invariants hold, 7 bytes are
buffered and within `v_size`, and after the fast path `v_offset = 7` exceeds
`v_limit = 5`. -/
theorem skip_fast_path_passes_limit :
    st_limit5.inRange ∧ st_limit5.skip ≤ st_limit5.pos ∧
    (st_limit5.v_size ≠ 0 →
      st_limit5.v_offset ≤ st_limit5.v_limit ∧ st_limit5.v_limit ≤ st_limit5.v_size) ∧
    7 ≤ st_limit5.pos - st_limit5.skip ∧
    (st_limit5.v_size = 0 ∨ st_limit5.v_offset + 7 ≤ st_limit5.v_size) ∧
    ∃ s1, i_buffer_skip be_eof st_limit5 7 = some (1, s1) ∧ s1.v_size ≠ 0 ∧
      s1.v_offset = 7 ∧ s1.v_limit = 5 ∧ ¬ s1.v_offset ≤ s1.v_limit :=
  ⟨by decide, by decide, by decide, by decide, by decide, _, rfl, by decide, rfl, rfl,
    by decide⟩

/-- Claim C6, amended: under the stated invariants and with `count` within the
buffered bytes and within `v_size`, `i_buffer_skip` returns 1 whatever the
backend, changes only `v_offset` (old value plus `count` modulo `2^64`, exactly
old plus `count` on a bounded stream) and `skip` (advanced by `count`), and on a
bounded stream keeps `v_limit ≤ v_size` and `v_offset ≤ v_size`, while
`v_offset ≤ v_limit` holds afterwards exactly when the old `v_offset + count`
was at most `v_limit`. -/
theorem skip_fast_path (be : Backend) (s : IBuffer) (count : Nat) (hs : s.inRange)
    (hsp : s.skip ≤ s.pos)
    (hinv : s.v_size ≠ 0 → s.v_offset ≤ s.v_limit ∧ s.v_limit ≤ s.v_size)
    (hcnt : count ≤ s.pos - s.skip)
    (hpre : s.v_size = 0 ∨ s.v_offset + count ≤ s.v_size) :
    ∃ s1, i_buffer_skip be s count = some (1, s1) ∧
      s1 = { s with v_offset := (s.v_offset + count) % M64, skip := s.skip + count } ∧
      (s.v_size ≠ 0 → s1.v_offset = s.v_offset + count) ∧
      (s1.v_size ≠ 0 →
        s1.v_limit ≤ s1.v_size ∧ s1.v_offset ≤ s1.v_size ∧
        (s1.v_offset ≤ s1.v_limit ↔ s.v_offset + count ≤ s.v_limit)) := by
  obtain ⟨_, h2, h3, h4, h5, h6, _⟩ := hs
  have hsub : usub s.pos s.skip = s.pos - s.skip := usub_eq h6 hsp
  have hsk : uadd s.skip count = s.skip + count := uadd_eq (by omega)
  have hpre2 : s.v_size = 0 ∨ uadd s.v_offset count ≤ s.v_size := by
    rcases hpre with h | h
    · exact Or.inl h
    · right; rw [uadd_eq (by omega)]; exact h
  have hcnt2 : count ≤ usub s.pos s.skip := by rw [hsub]; exact hcnt
  refine ⟨_, by rw [i_buffer_skip, if_pos hpre2, if_pos hcnt2], ?_, ?_, ?_⟩
  · rw [hsk]; rfl
  · intro hv
    show uadd s.v_offset count = _
    apply uadd_eq
    omega
  · intro hv
    have hv2 : s.v_size ≠ 0 := hv
    have e : uadd s.v_offset count = s.v_offset + count := uadd_eq (by omega)
    show s.v_limit ≤ s.v_size ∧ uadd s.v_offset count ≤ s.v_size ∧
      (uadd s.v_offset count ≤ s.v_limit ↔ _)
    rw [e]
    have := hinv hv2
    omega

/-- Claim C6, amended, at `st_limit5` and a skip of 3 bytes. -/
theorem skip_fast_path_witness :
    st_limit5.inRange ∧ st_limit5.skip ≤ st_limit5.pos ∧
    3 ≤ st_limit5.pos - st_limit5.skip ∧
    ∃ s1, i_buffer_skip be_eof st_limit5 3 = some (1, s1) ∧
      s1 = { st_limit5 with v_offset := (st_limit5.v_offset + 3) % M64,
                            skip := st_limit5.skip + 3 } ∧
      (st_limit5.v_size ≠ 0 → s1.v_offset = st_limit5.v_offset + 3) ∧
      (s1.v_size ≠ 0 →
        s1.v_limit ≤ s1.v_size ∧ s1.v_offset ≤ s1.v_size ∧
        (s1.v_offset ≤ s1.v_limit ↔ st_limit5.v_offset + 3 ≤ st_limit5.v_limit)) :=
  ⟨by decide, by decide, by decide,
    skip_fast_path be_eof st_limit5 3 (by decide) (by decide) (by decide) (by decide)
      (by decide)⟩

/-! ## Closed handles -/

/-- Claim C7: on a closed handle `i_buffer_read`, `i_buffer_seek` (assertion
satisfied) and an `i_buffer_skip` of more bytes than are buffered (assertion
satisfied) return -1 and leave the record as it was, for every backend, so no
backend operation has any part in the result; a skip of at most the buffered
bytes still returns 1 and advances `v_offset` and `skip`. -/
theorem closed_handle (be : Backend) (s : IBuffer) (hc : s.closed = true) :
    i_buffer_read be s = (-1, s) ∧
    (∀ v_offset, v_offset ≤ s.v_size → i_buffer_seek be s v_offset = some (-1, s)) ∧
    (∀ count, (s.v_size = 0 ∨ uadd s.v_offset count ≤ s.v_size) →
      count > usub s.pos s.skip → i_buffer_skip be s count = some (-1, s)) ∧
    (∀ count, (s.v_size = 0 ∨ uadd s.v_offset count ≤ s.v_size) →
      count ≤ usub s.pos s.skip →
      i_buffer_skip be s count =
        some (1, { s with v_offset := uadd s.v_offset count, skip := uadd s.skip count })) := by
  refine ⟨by simp [i_buffer_read, hc], ?_, ?_, ?_⟩
  · intro v h
    simp [i_buffer_seek, h, hc]
  · intro c hp hgt
    have : ¬ c ≤ usub s.pos s.skip := by omega
    rw [i_buffer_skip, if_pos hp, if_neg this]
    simp [hc]
  · intro c hp hle
    rw [i_buffer_skip, if_pos hp, if_pos hle]

/-- Claim C7 at the closed record `st_closed`, which buffers three bytes. -/
theorem closed_handle_witness :
    st_closed.closed = true ∧
    i_buffer_read be_eof st_closed = (-1, st_closed) ∧
    (∀ v_offset, v_offset ≤ st_closed.v_size →
      i_buffer_seek be_eof st_closed v_offset = some (-1, st_closed)) ∧
    (∀ count, (st_closed.v_size = 0 ∨ uadd st_closed.v_offset count ≤ st_closed.v_size) →
      count > usub st_closed.pos st_closed.skip →
      i_buffer_skip be_eof st_closed count = some (-1, st_closed)) ∧
    (∀ count, (st_closed.v_size = 0 ∨ uadd st_closed.v_offset count ≤ st_closed.v_size) →
      count ≤ usub st_closed.pos st_closed.skip →
      i_buffer_skip be_eof st_closed count =
        some (1, { st_closed with v_offset := uadd st_closed.v_offset count,
                                  skip := uadd st_closed.skip count })) :=
  ⟨rfl, closed_handle be_eof st_closed rfl⟩

/-! ## Rebasing the stream -/

/-- Claim C8: when the assertion of `i_buffer_set_start_offset` holds (in the
64-bit arithmetic of the code), a call with `offset = start_offset` changes
nothing; any other call stores `offset`, moves `v_offset` by
`diff = start_offset - offset` modulo `2^64`, moves `v_size` and `v_limit` by
`diff` only when the old `v_size` is non-zero (otherwise both stay), resets
`skip`, `pos` and `cr_lookup_pos` to 0 and `last_cr` to false, and keeps the
remaining fields. -/
theorem set_start_offset_effect (s : IBuffer) (offset : Nat) (hs : s.inRange)
    (hpre : s.v_size = 0 ∨ offset ≤ uadd s.start_offset s.v_size) :
    (offset = s.start_offset → i_buffer_set_start_offset s offset = some s) ∧
    (offset ≠ s.start_offset →
      ∃ s1, i_buffer_set_start_offset s offset = some s1 ∧
        s1.start_offset = offset ∧
        (s1.v_offset : Int)
          = ((s.v_offset : Int) + ((s.start_offset : Int) - (offset : Int))) % (M64 : Int) ∧
        (s.v_size ≠ 0 →
          (s1.v_size : Int)
            = ((s.v_size : Int) + ((s.start_offset : Int) - (offset : Int))) % (M64 : Int) ∧
          (s1.v_limit : Int)
            = ((s.v_limit : Int) + ((s.start_offset : Int) - (offset : Int))) % (M64 : Int)) ∧
        (s.v_size = 0 → s1.v_size = s.v_size ∧ s1.v_limit = s.v_limit) ∧
        s1.skip = 0 ∧ s1.pos = 0 ∧ s1.cr_lookup_pos = 0 ∧ s1.last_cr = false ∧
        s1.closed = s.closed ∧ s1.buffer = s.buffer ∧ s1.w_buffer = s.w_buffer) := by
  obtain ⟨_, h2, h3, h4, _⟩ := hs
  constructor
  · intro h
    subst h
    rw [i_buffer_set_start_offset, if_pos hpre, if_pos rfl]
  · intro h
    rw [i_buffer_set_start_offset, if_pos hpre, if_neg h]
    refine ⟨_, rfl, rfl, ?_, ?_, ?_, rfl, rfl, rfl, rfl, rfl, rfl, rfl⟩
    · exact uoff_add_off_diff _ _ _ h2
    · intro hv
      simp only [ne_eq, hv, not_false_eq_true, if_true]
      exact ⟨uoff_add_off_diff _ _ _ h3, uoff_add_off_diff _ _ _ h4⟩
    · intro hv
      simp [hv]

/-- Claim C8 at the bounded record `st_window` (start 0, size 200) rebased to
offset 40: `diff = -40`, so `v_offset`, `v_size` and `v_limit` become 60, 160
and 68. -/
theorem set_start_offset_effect_witness :
    st_window.inRange ∧
    (st_window.v_size = 0 ∨ 40 ≤ uadd st_window.start_offset st_window.v_size) ∧
    (40 ≠ st_window.start_offset →
      ∃ s1, i_buffer_set_start_offset st_window 40 = some s1 ∧
        s1.start_offset = 40 ∧
        (s1.v_offset : Int)
          = ((st_window.v_offset : Int) + ((st_window.start_offset : Int) - ((40 : Nat) : Int)))
            % (M64 : Int) ∧
        (st_window.v_size ≠ 0 →
          (s1.v_size : Int)
            = ((st_window.v_size : Int) + ((st_window.start_offset : Int) - ((40 : Nat) : Int)))
              % (M64 : Int) ∧
          (s1.v_limit : Int)
            = ((st_window.v_limit : Int) + ((st_window.start_offset : Int) - ((40 : Nat) : Int)))
              % (M64 : Int)) ∧
        (st_window.v_size = 0 →
          s1.v_size = st_window.v_size ∧ s1.v_limit = st_window.v_limit) ∧
        s1.skip = 0 ∧ s1.pos = 0 ∧ s1.cr_lookup_pos = 0 ∧ s1.last_cr = false ∧
        s1.closed = st_window.closed ∧ s1.buffer = st_window.buffer ∧
        s1.w_buffer = st_window.w_buffer) ∧
    (i_buffer_set_start_offset st_window 40).map
      (fun s1 => (s1.v_offset, s1.v_size, s1.v_limit)) = some (60, 160, 68) :=
  ⟨by decide, by decide, (set_start_offset_effect st_window 40 (by decide) (by decide)).2,
    by decide⟩

/-- Claim C9, as stated, fails at `st_rebase` and `offset = start_offset = 7`: the
call is allowed and returns at once, the three buffered bytes stay, and the
`i_buffer_get_data` that follows reports them. -/
theorem set_start_offset_same_keeps_data :
    st_rebase.inRange ∧ st_rebase.skip < st_rebase.pos ∧
    (st_rebase.v_size = 0 ∨ 7 ≤ uadd st_rebase.start_offset st_rebase.v_size) ∧
    i_buffer_set_start_offset st_rebase 7 = some st_rebase ∧
    i_buffer_get_data st_rebase = (some 2, 3, st_rebase) := by
  decide

/-- Claim C9, amended: for every record and every allowed offset,
`i_buffer_set_start_offset` succeeds; when `offset ≠ start_offset` all physical
buffer state is dropped (`skip = pos = cr_lookup_pos = 0`, `last_cr` false) and
the `i_buffer_get_data` that follows, with no read in between, returns NULL and
size 0; when `offset = start_offset` the record is left as it was. -/
theorem set_start_offset_discards (s : IBuffer) (offset : Nat)
    (hpre : s.v_size = 0 ∨ offset ≤ uadd s.start_offset s.v_size) :
    ∃ s1, i_buffer_set_start_offset s offset = some s1 ∧
      (offset ≠ s.start_offset →
        s1.skip = 0 ∧ s1.pos = 0 ∧ s1.cr_lookup_pos = 0 ∧ s1.last_cr = false ∧
        i_buffer_get_data s1 = (none, 0, s1)) ∧
      (offset = s.start_offset → s1 = s) := by
  by_cases hne : offset = s.start_offset
  · exact ⟨s, by rw [i_buffer_set_start_offset, if_pos hpre, if_pos hne],
      fun h => absurd hne h, fun _ => rfl⟩
  · rw [i_buffer_set_start_offset, if_pos hpre, if_neg hne]
    refine ⟨_, rfl, fun _ => ⟨rfl, rfl, rfl, rfl, ?_⟩, fun h => absurd h hne⟩
    simp [i_buffer_get_data, i_buffer_skip_lf]

/-- Claim C9, amended, at `st_rebase` (three bytes buffered) rebased from 7 to 3. -/
theorem set_start_offset_discards_witness :
    (st_rebase.v_size = 0 ∨ 3 ≤ uadd st_rebase.start_offset st_rebase.v_size) ∧
    ∃ s1, i_buffer_set_start_offset st_rebase 3 = some s1 ∧
      (3 ≠ st_rebase.start_offset →
        s1.skip = 0 ∧ s1.pos = 0 ∧ s1.cr_lookup_pos = 0 ∧ s1.last_cr = false ∧
        i_buffer_get_data s1 = (none, 0, s1)) ∧
      (3 = st_rebase.start_offset → s1 = st_rebase) :=
  ⟨by decide, set_start_offset_discards st_rebase 3 (by decide)⟩

/-! ## The window scenario -/

/-- Claim C10, as stated, fails at `st_window`: with `skip = 10`, `pos = 20`,
`v_offset = 100` and `v_limit = 108`, `i_buffer_get_data` reports all 10
buffered bytes, not 8. -/
theorem get_data_ignores_limit :
    st_window.skip = 10 ∧ st_window.pos = 20 ∧ st_window.v_offset = 100 ∧
    st_window.v_limit = 108 ∧
    i_buffer_get_data st_window = (some 10, 10, st_window) := by
  decide

/-- Claim C10, amended: with `skip = 10`, `pos = 20`, `v_offset = 100`, no pending
LF and `v_size ≥ 108`, `i_buffer_get_data` reports all 10 buffered bytes; once
`i_buffer_set_read_limit` has set the limit 108, which cuts `pos` to 18,
`i_buffer_get_data` reports exactly 8 bytes from index 10 (offsets 100..107),
`i_buffer_skip` of 8 returns 1 with `v_offset = 108`, and a further
`i_buffer_get_data` returns NULL and size 0. -/
theorem limit_scenario (be : Backend) (s : IBuffer)
    (hskip : s.skip = 10) (hpos : s.pos = 20) (hoff : s.v_offset = 100)
    (hcr : s.last_cr = false) (hsz : 108 ≤ s.v_size) :
    i_buffer_get_data s = (some 10, 10, s) ∧
    ∃ s1, i_buffer_set_read_limit s 108 = some s1 ∧ s1.v_limit = 108 ∧ s1.pos = 18 ∧
      i_buffer_get_data s1 = (some 10, 8, s1) ∧
      ∃ s2, i_buffer_skip be s1 8 = some (1, s2) ∧ s2.v_offset = 108 ∧ s2.skip = 18 ∧
        i_buffer_get_data s2 = (none, 0, s2) := by
  have e1 : usub 108 100 = 8 := by decide
  have e2 : uadd 8 10 = 18 := by decide
  have e3 : usub 18 10 = 8 := by decide
  have e4 : uadd 100 8 = 108 := by decide
  have e5 : uadd 10 8 = 18 := by decide
  have e6 : usub 20 10 = 10 := by decide
  refine ⟨by simp [i_buffer_get_data, i_buffer_skip_lf, hcr, hskip, hpos, e6], ?_⟩
  have h1 : i_buffer_set_read_limit s 108 = some { s with v_limit := 108, pos := 18 } := by
    simp [i_buffer_set_read_limit, hsz, hoff, hskip, hpos, e1, e2]
  refine ⟨_, h1, rfl, rfl, ?_, ?_⟩
  · simp [i_buffer_get_data, i_buffer_skip_lf, hcr, hskip, e3]
  · refine ⟨{ s with v_limit := 108, pos := 18, v_offset := 108, skip := 18 }, ?_, rfl, rfl, ?_⟩
    · simp [i_buffer_skip, hoff, hskip, e3, e4, e5, hsz]
    · simp [i_buffer_get_data, i_buffer_skip_lf, hcr]

/-- Claim C10, amended, at the record `st_window`. -/
theorem limit_scenario_witness :
    i_buffer_get_data st_window = (some 10, 10, st_window) ∧
    ∃ s1, i_buffer_set_read_limit st_window 108 = some s1 ∧ s1.v_limit = 108 ∧ s1.pos = 18 ∧
      i_buffer_get_data s1 = (some 10, 8, s1) ∧
      ∃ s2, i_buffer_skip be_eof s1 8 = some (1, s2) ∧ s2.v_offset = 108 ∧ s2.skip = 18 ∧
        i_buffer_get_data s2 = (none, 0, s2) :=
  limit_scenario be_eof st_window (by decide) (by decide) (by decide) (by decide) (by decide)

/-! ## The scan from an arbitrary index -/

/-- The scan started at `c` stops at the first CR or LF at an index `i ≥ c`. -/
theorem scan_index_found (buf : List Nat) (pos : Nat) (hr : pos < M64) :
    ∀ (fuel c i : Nat), c ≤ i → i < pos →
      (buf.getD i 0 = 13 ∨ buf.getD i 0 = 10) →
      (∀ j, c ≤ j → j < i → ¬ (buf.getD j 0 = 13 ∨ buf.getD j 0 = 10)) →
      i - c < fuel →
      next_line_scan buf pos fuel c = (true, i) := by
  intro fuel
  induction fuel with
  | zero => intro c i _ _ _ _ hf; omega
  | succ f ih =>
    intro c i hci hip hi hmin hf
    have hcp : c < pos := by omega
    rw [next_line_scan, if_pos hcp]
    by_cases hc : c = i
    · subst hc
      rw [if_pos hi]
    · have hlt : c < i := by omega
      rw [if_neg (hmin c (le_refl _) hlt), uadd_eq (by omega)]
      exact ih (c + 1) i (by omega) hip hi (fun j h1 h2 => hmin j (by omega) h2) (by omega)

/-- Without a CR or LF in `[c, pos)` the scan started at `c` runs up to `pos`. -/
theorem scan_index_none (buf : List Nat) (pos : Nat) (hr : pos < M64) :
    ∀ (fuel c : Nat), c ≤ pos →
      (∀ j, c ≤ j → j < pos → ¬ (buf.getD j 0 = 13 ∨ buf.getD j 0 = 10)) →
      pos - c ≤ fuel →
      next_line_scan buf pos fuel c = (false, pos) := by
  intro fuel
  induction fuel with
  | zero =>
    intro c hc _ hf
    have : c = pos := by omega
    rw [next_line_scan, this]
  | succ f ih =>
    intro c hc hno hf
    by_cases hcp : c < pos
    · rw [next_line_scan, if_pos hcp, if_neg (hno c (le_refl _) hcp), uadd_eq (by omega)]
      exact ih (c + 1) (by omega) (fun j h1 h2 => hno j (by omega) h2) (by omega)
    · have : c = pos := by omega
      rw [next_line_scan, if_neg hcp, this]

/-- Starting the scan at `a` or at a later `c` gives the same result when no CR
or LF lies in `[a, c)`. -/
theorem scan_resume (buf : List Nat) (pos : Nat) (hr : pos < M64) :
    ∀ (n a c : Nat), a + n = c → c ≤ pos →
      (∀ j, a ≤ j → j < c → ¬ (buf.getD j 0 = 13 ∨ buf.getD j 0 = 10)) →
      next_line_scan buf pos (pos - a) a = next_line_scan buf pos (pos - c) c := by
  intro n
  induction n with
  | zero =>
    intro a c hac _ _
    have : a = c := by omega
    rw [this]
  | succ n ih =>
    intro a c hac hcp hno
    have hap : a < pos := by omega
    have hf : pos - a = (pos - (a + 1)) + 1 := by omega
    rw [hf, next_line_scan, if_pos hap, if_neg (hno a (le_refl _) (by omega)),
      uadd_eq (by omega)]
    exact ih (a + 1) c (by omega) hcp (fun j h1 h2 => hno j (by omega) h2)

/-- Overwriting index `i` leaves the first `m ≤ i` elements as they were. -/
theorem take_set_le (l : List Nat) (i m x : Nat) (h : m ≤ i) :
    (l.set i x).take m = l.take m := by
  apply List.ext_getElem?
  intro k
  rw [List.getElem?_take, List.getElem?_take]
  split
  · rw [List.getElem?_set_ne (by omega)]
  · rfl

/-- Overwriting index `i` changes no other element. -/
theorem getD_set_ne (l : List Nat) (i j x : Nat) (h : j ≠ i) :
    (l.set i x).getD j 0 = l.getD j 0 := by
  rw [List.getD_eq_getElem?_getD, List.getD_eq_getElem?_getD, List.getElem?_set_ne (Ne.symm h)]

/-- When no LF is absorbed, `i_buffer_skip_lf` changes at most `last_cr`. -/
theorem skip_lf_no_absorb (s : IBuffer)
    (h : ¬ (s.last_cr = true ∧ s.skip < s.pos ∧ s.buffer.getD s.skip 0 = 10)) :
    i_buffer_skip_lf s = { s with last_cr := s.last_cr && decide (s.skip ≥ s.pos) } := by
  unfold i_buffer_skip_lf
  by_cases hc : (!s.last_cr) = true ∨ s.skip ≥ s.pos
  · rw [if_pos hc]
    rcases hc with h1 | h1
    · have : s.last_cr = false := by simpa using h1
      cases s; simp_all
    · cases s; simp_all
  · rw [if_neg hc]
    have hlc : s.last_cr = true := by
      by_contra hh; exact hc (Or.inl (by simpa using hh))
    have hlt : s.skip < s.pos := by omega
    have h10 : ¬ s.buffer.getD s.skip 0 = 10 := fun h' => h ⟨hlc, hlt, h'⟩
    rw [if_neg h10]
    have : decide (s.skip ≥ s.pos) = false := by simp; omega
    rw [hlc, this]
    rfl

/-! ## One line -/

/-- Claim C11: in a writable buffer with `skip ≤ cr_lookup_pos` and no pending LF
to absorb, let `i` be the smallest index in `[cr_lookup_pos, pos)` that holds CR
or LF.  Then `i_buffer_next_line` returns the pointer `skip`, whose line is the
old bytes at `[skip, i)`, sets `last_cr` to whether the byte at `i` was CR,
writes 0 at `i` and changes no other byte, sets `skip = cr_lookup_pos = i + 1`,
advances `v_offset` by `i + 1 - skip` (modulo `2^64`) and keeps `pos` and all
other fields. -/
theorem next_line_at_first_eol (s : IBuffer) (i : Nat)
    (hw : s.w_buffer = true) (hr : s.pos < M64)
    (hsc : s.skip ≤ s.cr_lookup_pos)
    (hlf : ¬ (s.last_cr = true ∧ s.buffer.getD s.skip 0 = 10))
    (hci : s.cr_lookup_pos ≤ i) (hip : i < s.pos)
    (hi : s.buffer.getD i 0 = 13 ∨ s.buffer.getD i 0 = 10)
    (hmin : ∀ j, s.cr_lookup_pos ≤ j → j < i →
      ¬ (s.buffer.getD j 0 = 13 ∨ s.buffer.getD j 0 = 10)) :
    i_buffer_next_line s =
      (some s.skip,
        { s with
          last_cr := decide (s.buffer.getD i 0 = 13)
          buffer := s.buffer.set i 0
          v_offset := (s.v_offset + (i + 1 - s.skip)) % M64
          skip := i + 1
          cr_lookup_pos := i + 1 }) ∧
    line_at (i_buffer_next_line s).2 s.skip = (s.buffer.drop s.skip).take (i - s.skip) ∧
    (i_buffer_next_line s).2.buffer.getD i 0 = 0 ∧
    (∀ j, j ≠ i → (i_buffer_next_line s).2.buffer.getD j 0 = s.buffer.getD j 0) ∧
    (i_buffer_next_line s).2.buffer.length = s.buffer.length ∧
    (i_buffer_next_line s).2.pos = s.pos := by
  have hsp : s.skip < s.pos := by omega
  have hk := skip_lf_no_absorb s (fun h => hlf ⟨h.1, h.2.2⟩)
  have hd : decide (s.skip ≥ s.pos) = false := by simp; omega
  rw [hd, Bool.and_false] at hk
  have hscan := scan_index_found s.buffer s.pos hr (s.pos - s.cr_lookup_pos) s.cr_lookup_pos i
    hci hip hi hmin (by omega)
  have hi1 : uadd i 1 = i + 1 := uadd_eq (by omega)
  have hsub : usub (i + 1) s.skip = i + 1 - s.skip := usub_eq (by omega) (by omega)
  have hnl : i_buffer_next_line s =
      (some s.skip,
        { s with
          last_cr := decide (s.buffer.getD i 0 = 13)
          buffer := s.buffer.set i 0
          v_offset := (s.v_offset + (i + 1 - s.skip)) % M64
          skip := i + 1
          cr_lookup_pos := i + 1 }) := by
    unfold i_buffer_next_line
    rw [hk]
    have h1 : ¬ s.skip ≥ s.pos := by omega
    simp only [if_neg h1, hw, Bool.not_true, Bool.false_eq_true, if_false, hscan, hi1, hsub]
    rfl
  have hlen : i < s.buffer.length := by
    by_contra hge
    have : s.buffer.getD i 0 = 0 := by
      rw [List.getD_eq_getElem?_getD, List.getElem?_eq_none (by omega)]
      rfl
    rw [this] at hi
    omega
  rw [hnl]
  refine ⟨rfl, ?_, ?_, ?_, ?_, rfl⟩
  · show ((s.buffer.set i 0).drop s.skip).take (i + 1 - 1 - s.skip) = _
    have e : i + 1 - 1 - s.skip = i - s.skip := by omega
    rw [e, List.take_drop, List.take_drop, take_set_le _ _ _ _ (by omega)]
  · show (s.buffer.set i 0).getD i 0 = 0
    rw [List.getD_eq_getElem?_getD, List.getElem?_set_self (by simpa using hlen)]
    rfl
  · intro j hj
    exact getD_set_ne _ _ _ _ hj
  · show (s.buffer.set i 0).length = _
    simp

/-- Claim C11 at the record `st_lines`: the first LF is at index 2 and the line
is "ab". -/
theorem next_line_at_first_eol_witness :
    i_buffer_next_line st_lines =
      (some 0, { st_lines with buffer := [97, 98, 0, 99, 100, 10, 101, 102],
                               v_offset := 3, skip := 3, cr_lookup_pos := 3 }) ∧
    line_at (i_buffer_next_line st_lines).2 0 = [97, 98] :=
  ⟨(next_line_at_first_eol st_lines 2 (by decide) (by decide) (by decide) (by decide)
      (by decide) (by decide) (by decide) (by decide)).1,
   (next_line_at_first_eol st_lines 2 (by decide) (by decide) (by decide) (by decide)
      (by decide) (by decide) (by decide) (by decide)).2.1⟩

/-! ## Draining through data access -/

/-- Claim C12, as stated, fails at `st_lf_data`, where a CR is pending and LF "BC"
is buffered: `i_buffer_get_data` swallows the LF and reports 2 bytes, and
skipping them ends with `last_cr` false and `cr_lookup_pos = 3`; skipping the 3
buffered bytes without the call ends with `last_cr` true and
`cr_lookup_pos = 2`. -/
theorem drain_paths_differ :
    st_lf_data.inRange ∧ st_lf_data.skip ≤ st_lf_data.pos ∧
    i_buffer_get_data st_lf_data
      = (some 3, 2, { st_lf_data with skip := 3, v_offset := 3, cr_lookup_pos := 3,
                                      last_cr := false }) ∧
    i_buffer_skip be_eof (i_buffer_get_data st_lf_data).2.2 2
      = some (1, { st_lf_data with skip := 5, v_offset := 5, cr_lookup_pos := 3,
                                    last_cr := false }) ∧
    i_buffer_skip be_eof st_lf_data 3
      = some (1, { st_lf_data with skip := 5, v_offset := 5, cr_lookup_pos := 2,
                                    last_cr := true }) := by
  decide

/-- Claim C12, amended: with `skip ≤ pos` and the assertion of `i_buffer_skip`
satisfied for all buffered bytes, `i_buffer_get_data` followed by a skip of the
size it reported, and a skip of all buffered bytes without that call, both
return 1 whatever the backend and end in records that agree in every field
except possibly `last_cr` and `cr_lookup_pos` (`skip = pos`, `v_offset` advanced
by `pos - skip` modulo `2^64`).  The two records are equal exactly when
`last_cr` was false or nothing was buffered (`skip = pos`); when `last_cr` was
set and bytes are buffered, the record after `i_buffer_get_data` has `last_cr`
cleared and the record after the plain skip still has it set. -/
theorem drain_paths (be : Backend) (s : IBuffer) (hs : s.inRange) (hsp : s.skip ≤ s.pos)
    (hpre : s.v_size = 0 ∨ s.v_offset + (s.pos - s.skip) ≤ s.v_size) :
    ∃ sA sB,
      i_buffer_skip be (i_buffer_get_data s).2.2 (i_buffer_get_data s).2.1 = some (1, sA) ∧
      i_buffer_skip be s (s.pos - s.skip) = some (1, sB) ∧
      sB = { sA with last_cr := s.last_cr, cr_lookup_pos := s.cr_lookup_pos } ∧
      sA.skip = s.pos ∧ sA.v_offset = (s.v_offset + (s.pos - s.skip)) % M64 ∧
      (sA = sB ↔ (s.last_cr = false ∨ s.skip = s.pos)) ∧
      (s.last_cr = true → s.skip < s.pos → sA.last_cr = false ∧ sB.last_cr = true) := by
  obtain ⟨_, h2, h3, h4, h5, h6, _⟩ := hs
  have hsub : usub s.pos s.skip = s.pos - s.skip := usub_eq h6 hsp
  have hB : i_buffer_skip be s (s.pos - s.skip) =
      some (1, { s with v_offset := (s.v_offset + (s.pos - s.skip)) % M64, skip := s.pos }) := by
    have hp : s.v_size = 0 ∨ uadd s.v_offset (s.pos - s.skip) ≤ s.v_size := by
      rcases hpre with h | h
      · exact Or.inl h
      · right; rw [uadd_eq (by omega)]; exact h
    have hsk : uadd s.skip (s.pos - s.skip) = s.pos := by rw [uadd_eq (by omega)]; omega
    rw [i_buffer_skip, if_pos hp, if_pos (by rw [hsub]), hsk]
    rfl
  by_cases habs : s.last_cr = true ∧ s.skip < s.pos ∧ s.buffer.getD s.skip 0 = 10
  · obtain ⟨hlc, hlt, h10⟩ := habs
    have hcond : ¬ ((!s.last_cr) = true ∨ s.skip ≥ s.pos) := by
      rw [hlc]; simp; omega
    have hk : i_buffer_skip_lf s =
        { s with
          cr_lookup_pos :=
            if s.skip = s.cr_lookup_pos then uadd s.cr_lookup_pos 1 else s.cr_lookup_pos
          skip := s.skip + 1
          v_offset := uadd s.v_offset 1
          last_cr := false } := by
      rw [i_buffer_skip_lf, if_neg hcond, if_pos h10, uadd_eq (show s.skip + 1 < M64 by omega)]
    have hg : i_buffer_get_data s =
        (if s.skip + 1 ≥ s.pos then none else some (s.skip + 1), s.pos - (s.skip + 1),
          i_buffer_skip_lf s) := by
      unfold i_buffer_get_data
      rw [hk]
      by_cases hge : s.skip + 1 ≥ s.pos
      · simp only [if_pos hge]
        have : s.pos - (s.skip + 1) = 0 := by omega
        rw [this]
      · simp only [if_neg hge]
        rw [usub_eq h6 (by omega)]
    have hA : i_buffer_skip be (i_buffer_get_data s).2.2 (i_buffer_get_data s).2.1 =
        some (1, { i_buffer_skip_lf s with
                   v_offset := (s.v_offset + (s.pos - s.skip)) % M64, skip := s.pos }) := by
      rw [hg]
      simp only
      rw [hk]
      have hp : s.v_size = 0 ∨ uadd (uadd s.v_offset 1) (s.pos - (s.skip + 1)) ≤ s.v_size := by
        rcases hpre with h | h
        · exact Or.inl h
        · right; unfold uadd M64 at *; omega
      have hc : s.pos - (s.skip + 1) ≤ usub s.pos (s.skip + 1) := by
        rw [usub_eq h6 (by omega)]
      have e1 : uadd (uadd s.v_offset 1) (s.pos - (s.skip + 1))
          = (s.v_offset + (s.pos - s.skip)) % M64 := by
        unfold uadd M64 at *; omega
      have e2 : uadd (s.skip + 1) (s.pos - (s.skip + 1)) = s.pos := by
        rw [uadd_eq (by omega)]; omega
      rw [i_buffer_skip, if_pos hp, if_pos hc]
      simp only [e1, e2]
    have hAl : (i_buffer_skip_lf s).last_cr = false := by rw [hk]
    refine ⟨_, _, hA, hB, ?_, rfl, rfl, ?_, ?_⟩
    · rw [hk]
    · constructor
      · intro h
        have h9 := congrArg IBuffer.last_cr h
        have h8 : (i_buffer_skip_lf s).last_cr = s.last_cr := h9
        rw [hAl, hlc] at h8
        exact absurd h8 (by decide)
      · rintro (h | h)
        · rw [hlc] at h; exact absurd h (by decide)
        · omega
    · intro _ _
      exact ⟨hAl, hlc⟩
  · have hk := skip_lf_no_absorb s habs
    have hg : i_buffer_get_data s =
        (if s.skip ≥ s.pos then none else some s.skip, s.pos - s.skip, i_buffer_skip_lf s) := by
      unfold i_buffer_get_data
      rw [hk]
      by_cases hge : s.skip ≥ s.pos
      · simp only [if_pos hge]
        have : s.pos - s.skip = 0 := by omega
        rw [this]
      · simp only [if_neg hge, hsub]
    have hA : i_buffer_skip be (i_buffer_get_data s).2.2 (i_buffer_get_data s).2.1 =
        some (1, { i_buffer_skip_lf s with
                   v_offset := (s.v_offset + (s.pos - s.skip)) % M64, skip := s.pos }) := by
      rw [hg]
      simp only
      rw [hk]
      have hp : s.v_size = 0 ∨ uadd s.v_offset (s.pos - s.skip) ≤ s.v_size := by
        rcases hpre with h | h
        · exact Or.inl h
        · right; rw [uadd_eq (by omega)]; exact h
      have hsk : uadd s.skip (s.pos - s.skip) = s.pos := by rw [uadd_eq (by omega)]; omega
      rw [i_buffer_skip, if_pos hp, if_pos (by rw [hsub]), hsk]
      rfl
    have hAl : (i_buffer_skip_lf s).last_cr = (s.last_cr && decide (s.skip ≥ s.pos)) := by
      rw [hk]
    refine ⟨_, _, hA, hB, ?_, rfl, rfl, ?_, ?_⟩
    · rw [hk]
    · constructor
      · intro h
        have h9 := congrArg IBuffer.last_cr h
        have h8 : (i_buffer_skip_lf s).last_cr = s.last_cr := h9
        rw [hAl] at h8
        cases hl : s.last_cr with
        | false => exact Or.inl rfl
        | true =>
          rw [hl] at h8
          have : s.skip ≥ s.pos := by simpa using h8
          exact Or.inr (by omega)
      · rintro (h | h)
        · rw [hk, h]
          rfl
        · have hd : decide (s.skip ≥ s.pos) = true := by simp; omega
          rw [hk, hd, Bool.and_true]
    · intro hl hlt
      have hd : decide (s.skip ≥ s.pos) = false := by simp; omega
      refine ⟨?_, hl⟩
      show (i_buffer_skip_lf s).last_cr = false
      rw [hAl, hd, Bool.and_false]

/-- Claim C12, amended, at the record `st_lf_data`, where a CR is pending and
three bytes are buffered: the two final records differ. -/
theorem drain_paths_witness :
    st_lf_data.inRange ∧ st_lf_data.skip ≤ st_lf_data.pos ∧
    ∃ sA sB,
      i_buffer_skip be_eof (i_buffer_get_data st_lf_data).2.2 (i_buffer_get_data st_lf_data).2.1
        = some (1, sA) ∧
      i_buffer_skip be_eof st_lf_data (st_lf_data.pos - st_lf_data.skip) = some (1, sB) ∧
      sB = { sA with last_cr := st_lf_data.last_cr,
                     cr_lookup_pos := st_lf_data.cr_lookup_pos } ∧
      sA.skip = st_lf_data.pos ∧
      sA.v_offset = (st_lf_data.v_offset + (st_lf_data.pos - st_lf_data.skip)) % M64 ∧
      (sA = sB ↔ (st_lf_data.last_cr = false ∨ st_lf_data.skip = st_lf_data.pos)) ∧
      (st_lf_data.last_cr = true → st_lf_data.skip < st_lf_data.pos →
        sA.last_cr = false ∧ sB.last_cr = true) :=
  ⟨by decide, by decide, drain_paths be_eof st_lf_data (by decide) (by decide) (by decide)⟩

/-! ## Seeking in a stream of unknown size -/

/-- Claim C13, as stated, fails at the open record `st_rebase`, whose `v_size` is
0: a seek to offset 5 fails the assertion `v_offset <= v_size` and does not
return the result of the backend seek. -/
theorem seek_unbounded_fails :
    st_rebase.closed = false ∧ st_rebase.v_size = 0 ∧
    i_buffer_seek be_eof st_rebase 5 = none ∧
    i_buffer_seek be_eof st_rebase 5 ≠ some (be_eof.seek st_rebase 5) := by
  decide

/-- Claim C13, amended: the bound `v_offset ≤ v_size` is asserted by
`i_buffer_seek` for bounded and unbounded streams alike.  On every open handle
a target `v_offset ≤ v_size` passes the assertion and the call returns exactly
the result of the backend seek called with that `v_offset`; a target above
`v_size` fails the assertion; so with `v_size = 0` the call returns the
backend's result exactly when `v_offset = 0`. -/
theorem seek_precondition (be : Backend) (s : IBuffer) (v_offset : Nat)
    (hopen : s.closed = false) :
    (v_offset ≤ s.v_size → i_buffer_seek be s v_offset = some (be.seek s v_offset)) ∧
    (s.v_size < v_offset → i_buffer_seek be s v_offset = none) ∧
    (s.v_size = 0 →
      (i_buffer_seek be s v_offset = some (be.seek s v_offset) ↔ v_offset = 0)) := by
  have h1 : v_offset ≤ s.v_size → i_buffer_seek be s v_offset = some (be.seek s v_offset) := by
    intro h
    rw [i_buffer_seek, if_pos h, hopen]
    rfl
  have h2 : s.v_size < v_offset → i_buffer_seek be s v_offset = none := by
    intro h
    rw [i_buffer_seek, if_neg (by omega)]
  refine ⟨h1, h2, fun hz => ⟨fun h => ?_, fun h => h1 (by omega)⟩⟩
  by_contra hne
  rw [h2 (by omega)] at h
  exact absurd h (by simp)

/-- Claim C13, amended, at the open record `st_rebase` (`v_size = 0`) and the
target 0. -/
theorem seek_precondition_witness :
    st_rebase.closed = false ∧
    (0 ≤ st_rebase.v_size → i_buffer_seek be_eof st_rebase 0 = some (be_eof.seek st_rebase 0)) ∧
    (st_rebase.v_size < 0 → i_buffer_seek be_eof st_rebase 0 = none) ∧
    (st_rebase.v_size = 0 →
      (i_buffer_seek be_eof st_rebase 0 = some (be_eof.seek st_rebase 0) ↔ 0 = 0)) :=
  ⟨by decide, seek_precondition be_eof st_rebase 0 (by decide)⟩

/-! ## The read limit, field by field -/

/-- Claim C14: `i_buffer_set_read_limit` with 0 sets `v_limit = v_size` and changes
nothing else; with `L ≠ 0` and `v_offset ≤ L ≤ v_size` it sets `v_limit = L` and
`pos` to the minimum of the old `pos` and `L - v_offset + skip` as the code
computes it in 64-bit arithmetic, which is the plain sum unless that sum
reaches `2^64`, and changes nothing else. -/
theorem set_read_limit_effect (s : IBuffer) (hs : s.inRange) :
    i_buffer_set_read_limit s 0 = some { s with v_limit := s.v_size } ∧
    ∀ L, L ≠ 0 → s.v_offset ≤ L → L ≤ s.v_size →
      i_buffer_set_read_limit s L =
        some { s with v_limit := L, pos := min s.pos ((L - s.v_offset + s.skip) % M64) } ∧
      (L - s.v_offset + s.skip < M64 →
        i_buffer_set_read_limit s L =
          some { s with v_limit := L, pos := min s.pos (L - s.v_offset + s.skip) }) := by
  obtain ⟨_, h2, h3, h4, h5, h6, _⟩ := hs
  constructor
  · simp [i_buffer_set_read_limit]
  · intro L hL hlo hhi
    have hge : L ≥ s.v_offset := hlo
    have hsub : usub L s.v_offset = L - s.v_offset := usub_eq (by omega) hlo
    have e1 : i_buffer_set_read_limit s L =
        some { s with v_limit := L, pos := min s.pos ((L - s.v_offset + s.skip) % M64) } := by
      simp only [i_buffer_set_read_limit, if_pos hhi, if_neg hL, if_pos hge, hsub, uadd]
      split_ifs with hgt
      · rw [Nat.min_eq_right (by omega)]
      · rw [Nat.min_eq_left (by omega)]
    refine ⟨e1, ?_⟩
    intro hnw
    rw [e1, Nat.mod_eq_of_lt hnw]

/-- Claim C14 at the record `st_window` and the limits 0 and 104. -/
theorem set_read_limit_effect_witness :
    st_window.inRange ∧
    i_buffer_set_read_limit st_window 0 = some { st_window with v_limit := st_window.v_size } ∧
    i_buffer_set_read_limit st_window 104 = some { st_window with v_limit := 104, pos := 14 } :=
  ⟨by decide, (set_read_limit_effect st_window (by decide)).1,
    ((set_read_limit_effect st_window (by decide)).2 104 (by decide) (by decide)
      (by decide)).2 (by decide)⟩

/-! ## Read-only buffers -/

/-- Claim C15: when the buffer is read-only, `i_buffer_next_line` returns NULL and
leaves the record that `i_buffer_skip_lf` produces: the buffer bytes are those
of before, and the record is unchanged, or has only `last_cr` cleared, or has
absorbed a pending LF (`last_cr` cleared, `skip` and `v_offset` advanced by one,
`cr_lookup_pos` advanced with `skip` when both were equal). -/
theorem next_line_read_only (s : IBuffer) (hw : s.w_buffer = false) :
    i_buffer_next_line s = (none, i_buffer_skip_lf s) ∧
    (i_buffer_next_line s).2.buffer = s.buffer ∧
    ((i_buffer_next_line s).2 = s ∨
     (i_buffer_next_line s).2 = { s with last_cr := false } ∨
     (s.last_cr = true ∧ s.skip < s.pos ∧ s.buffer.getD s.skip 0 = 10 ∧
      (i_buffer_next_line s).2 =
        { s with last_cr := false, skip := uadd s.skip 1, v_offset := uadd s.v_offset 1,
                 cr_lookup_pos := if s.skip = s.cr_lookup_pos then uadd s.cr_lookup_pos 1
                                  else s.cr_lookup_pos })) := by
  have hcases : i_buffer_skip_lf s = s ∨ i_buffer_skip_lf s = { s with last_cr := false } ∨
      (s.last_cr = true ∧ s.skip < s.pos ∧ s.buffer.getD s.skip 0 = 10 ∧
        i_buffer_skip_lf s =
          { s with last_cr := false, skip := uadd s.skip 1, v_offset := uadd s.v_offset 1,
                   cr_lookup_pos := if s.skip = s.cr_lookup_pos then uadd s.cr_lookup_pos 1
                                    else s.cr_lookup_pos }) := by
    unfold i_buffer_skip_lf
    by_cases h : (!s.last_cr) = true ∨ s.skip ≥ s.pos
    · left; rw [if_pos h]
    · rw [if_neg h]
      right
      have hlc : s.last_cr = true := by
        by_contra hh; exact h (Or.inl (by simpa using hh))
      by_cases h10 : s.buffer.getD s.skip 0 = 10
      · right
        rw [if_pos h10]
        exact ⟨hlc, by omega, h10, rfl⟩
      · left; rw [if_neg h10]
  have hw2 : (i_buffer_skip_lf s).w_buffer = false := by
    rcases hcases with h | h | ⟨_, _, _, h⟩ <;> rw [h] <;> exact hw
  have hnl : i_buffer_next_line s = (none, i_buffer_skip_lf s) := by
    unfold i_buffer_next_line
    by_cases h1 : (i_buffer_skip_lf s).skip ≥ (i_buffer_skip_lf s).pos
    · simp only [if_pos h1]
    · simp only [if_neg h1, hw2, Bool.not_false, if_true]
  rw [hnl]
  refine ⟨rfl, ?_, ?_⟩
  · rcases hcases with h | h | ⟨_, _, _, h⟩ <;> (show (i_buffer_skip_lf s).buffer = _) <;>
      rw [h]
  · rcases hcases with h | h | ⟨a, b, c, h⟩
    · exact Or.inl h
    · exact Or.inr (Or.inl h)
    · exact Or.inr (Or.inr ⟨a, b, c, h⟩)

/-- Claim C15 at the read-only record `st_readonly`, where an LF is absorbed. -/
theorem next_line_read_only_witness :
    i_buffer_next_line st_readonly = (none, i_buffer_skip_lf st_readonly) ∧
    (i_buffer_next_line st_readonly).2 =
      { st_readonly with last_cr := false, skip := 3, v_offset := 3, cr_lookup_pos := 3 } :=
  ⟨(next_line_read_only st_readonly (by decide)).1, by decide⟩

/-! ## Cursor invariants -/

/-- A terminator reported by the scan lies before `pos`. -/
theorem scan_true_lt (buf : List Nat) (pos : Nat) (hr : pos < M64) :
    ∀ (fuel c i : Nat), next_line_scan buf pos fuel c = (true, i) → c ≤ i ∧ i < pos := by
  intro fuel
  induction fuel with
  | zero => intro c i h; simp [next_line_scan] at h
  | succ f ih =>
    intro c i h
    rw [next_line_scan] at h
    by_cases hcp : c < pos
    · rw [if_pos hcp] at h
      by_cases he : buf.getD c 0 = 13 ∨ buf.getD c 0 = 10
      · rw [if_pos he] at h
        have : c = i := by simpa using h
        omega
      · rw [if_neg he, uadd_eq (by omega)] at h
        have := ih _ _ h
        omega
    · rw [if_neg hcp] at h
      simp at h

/-- A scan that finds nothing ends at `pos` when it started at or before `pos`
and at its start index otherwise. -/
theorem scan_false_end (buf : List Nat) (pos : Nat) (hr : pos < M64) :
    ∀ (fuel c i : Nat), pos - c ≤ fuel → next_line_scan buf pos fuel c = (false, i) →
      (c ≤ pos → i = pos) ∧ (pos < c → i = c) := by
  intro fuel
  induction fuel with
  | zero =>
    intro c i hf h
    have : c = i := by simpa [next_line_scan] using h
    omega
  | succ f ih =>
    intro c i hf h
    rw [next_line_scan] at h
    by_cases hcp : c < pos
    · rw [if_pos hcp] at h
      by_cases he : buf.getD c 0 = 13 ∨ buf.getD c 0 = 10
      · rw [if_pos he] at h
        simp at h
      · rw [if_neg he, uadd_eq (by omega)] at h
        have := ih _ _ (by omega) h
        omega
    · rw [if_neg hcp] at h
      have : c = i := by simpa using h
      omega

/-- The two cursor orderings after `i_buffer_skip_lf`. -/
theorem skip_lf_cursors (s : IBuffer) (hr : s.pos < M64) :
    (i_buffer_skip_lf s).pos = s.pos ∧
    (s.skip ≤ s.pos → (i_buffer_skip_lf s).skip ≤ (i_buffer_skip_lf s).pos) ∧
    (cr_inv s → cr_inv (i_buffer_skip_lf s)) := by
  unfold i_buffer_skip_lf cr_inv
  by_cases h : (!s.last_cr) = true ∨ s.skip ≥ s.pos
  · rw [if_pos h]
    exact ⟨rfl, id, id⟩
  · rw [if_neg h]
    by_cases h10 : s.buffer.getD s.skip 0 = 10
    · rw [if_pos h10]
      have e1 : uadd s.skip 1 = s.skip + 1 := uadd_eq (by omega)
      refine ⟨rfl, fun _ => ?_, fun hi => ?_⟩
      · show uadd s.skip 1 ≤ s.pos
        omega
      · show uadd s.skip 1 ≤ (if s.skip = s.cr_lookup_pos then uadd s.cr_lookup_pos 1
            else s.cr_lookup_pos) ∧
          (if s.skip = s.cr_lookup_pos then uadd s.cr_lookup_pos 1 else s.cr_lookup_pos) ≤ s.pos
        split_ifs with hc
        · rw [← hc, e1]; omega
        · omega
    · rw [if_neg h10]
      exact ⟨rfl, id, id⟩

/-- Rebasing leaves the record as it is or resets the three cursors. -/
theorem set_start_offset_cursors (s : IBuffer) (offset : Nat) (s1 : IBuffer)
    (h : i_buffer_set_start_offset s offset = some s1) :
    s1 = s ∨ (s1.skip = 0 ∧ s1.pos = 0 ∧ s1.cr_lookup_pos = 0) := by
  unfold i_buffer_set_start_offset at h
  by_cases h1 : s.v_size = 0 ∨ offset ≤ uadd s.start_offset s.v_size
  · rw [if_pos h1] at h
    by_cases h2 : offset = s.start_offset
    · rw [if_pos h2] at h
      exact Or.inl (Option.some.inj h).symm
    · rw [if_neg h2] at h
      have := Option.some.inj h
      rw [← this]
      exact Or.inr ⟨rfl, rfl, rfl⟩
  · rw [if_neg h1] at h
    exact absurd h (by simp)

/-- The read limit leaves `skip` alone and either keeps `pos` or cuts it to
`L - v_offset + skip`. -/
theorem set_read_limit_cursors (s : IBuffer) (L : Nat) (s1 : IBuffer)
    (h : i_buffer_set_read_limit s L = some s1) :
    s1.skip = s.skip ∧
    (s1.pos = s.pos ∨
      (L ≤ s.v_size ∧ L ≥ s.v_offset ∧ s1.pos = uadd (usub L s.v_offset) s.skip)) := by
  unfold i_buffer_set_read_limit at h
  by_cases h1 : L ≤ s.v_size
  · rw [if_pos h1] at h
    by_cases h2 : L = 0
    · rw [if_pos h2] at h
      have := Option.some.inj h
      rw [← this]
      exact ⟨rfl, Or.inl rfl⟩
    · rw [if_neg h2] at h
      by_cases h3 : L ≥ s.v_offset
      · rw [if_pos h3] at h
        simp only at h
        by_cases h4 : s.pos > uadd (usub L s.v_offset) s.skip
        · rw [if_pos h4] at h
          have := Option.some.inj h
          rw [← this]
          exact ⟨rfl, Or.inr ⟨h1, h3, rfl⟩⟩
        · rw [if_neg h4] at h
          have := Option.some.inj h
          rw [← this]
          exact ⟨rfl, Or.inl rfl⟩
      · rw [if_neg h3] at h
        exact absurd h (by simp)
  · rw [if_neg h1] at h
    exact absurd h (by simp)

/-- The operations that keep `skip ≤ cr_lookup_pos ≤ pos`: rebasing, line
reading and data access. -/
theorem cr_inv_kept (s : IBuffer) (hr : s.pos < M64) (hi : cr_inv s) :
    (∀ offset s1, i_buffer_set_start_offset s offset = some s1 → cr_inv s1) ∧
    cr_inv (i_buffer_next_line s).2 ∧
    cr_inv (i_buffer_get_data s).2.2 := by
  have hk := skip_lf_cursors s hr
  have hi1 := hk.2.2 hi
  refine ⟨?_, ?_, ?_⟩
  · intro offset s1 h
    rcases set_start_offset_cursors s offset s1 h with e | ⟨e1, e2, e3⟩
    · rw [e]; exact hi
    · unfold cr_inv; omega
  · unfold i_buffer_next_line
    generalize i_buffer_skip_lf s = t at hk hi1
    have hrt : t.pos < M64 := by rw [hk.1]; exact hr
    simp only
    split_ifs with h1 h2
    · exact hi1
    · exact hi1
    · rcases hsc : next_line_scan t.buffer t.pos (t.pos - t.cr_lookup_pos) t.cr_lookup_pos
        with ⟨b, i⟩
      cases b
      · have := (scan_false_end t.buffer t.pos hrt _ _ _ (le_refl _) hsc).1 hi1.2
        show t.skip ≤ i ∧ i ≤ t.pos
        omega
      · have := scan_true_lt t.buffer t.pos hrt _ _ _ hsc
        show uadd i 1 ≤ uadd i 1 ∧ uadd i 1 ≤ t.pos
        rw [uadd_eq (by omega)]
        omega
  · unfold i_buffer_get_data
    simp only
    split_ifs <;> exact hi1

/-- Claim C18, amended: for every in-range record with `skip ≤ pos`, the
invariant `skip ≤ pos` holds again after `i_buffer_set_start_offset`, after
`i_buffer_set_read_limit` with a limit `L` whose sum `L - v_offset + skip` stays
below `2^64`, after the fast path of `i_buffer_skip` (which returns 1), after
`i_buffer_next_line` and after `i_buffer_get_data`; on the slow path of
`i_buffer_skip` an open handle hands the backend a record with `skip = pos`,
and a closed handle returns -1 with the record unchanged. -/
theorem skip_le_pos_kept (be : Backend) (s : IBuffer) (hs : s.inRange)
    (hsp : s.skip ≤ s.pos) :
    (∀ offset s1, i_buffer_set_start_offset s offset = some s1 → s1.skip ≤ s1.pos) ∧
    (∀ L s1, i_buffer_set_read_limit s L = some s1 → L - s.v_offset + s.skip < M64 →
      s1.skip ≤ s1.pos) ∧
    (∀ count, count ≤ usub s.pos s.skip →
      ∀ r, i_buffer_skip be s count = some r → r.1 = 1 ∧ r.2.skip ≤ r.2.pos) ∧
    (∀ count, ¬ count ≤ usub s.pos s.skip → s.closed = false →
      ∀ r, i_buffer_skip be s count = some r →
        ∃ s2 c, r = be.skip_count s2 c ∧ s2.skip = s2.pos) ∧
    (∀ count, ¬ count ≤ usub s.pos s.skip → s.closed = true →
      ∀ r, i_buffer_skip be s count = some r → r = (-1, s)) ∧
    (i_buffer_next_line s).2.skip ≤ (i_buffer_next_line s).2.pos ∧
    (i_buffer_get_data s).2.2.skip ≤ (i_buffer_get_data s).2.2.pos := by
  obtain ⟨_, h2, h3, h4, h5, h6, _⟩ := hs
  have hk := skip_lf_cursors s h6
  have hsp1 := hk.2.1 hsp
  refine ⟨?_, ?_, ?_, ?_, ?_, ?_, ?_⟩
  · intro offset s1 h
    rcases set_start_offset_cursors s offset s1 h with e | ⟨e1, e2, e3⟩
    · rw [e]; exact hsp
    · omega
  · intro L s1 h hnw
    obtain ⟨e1, e2 | ⟨hle, hge, e2⟩⟩ := set_read_limit_cursors s L s1 h
    · omega
    · rw [e1, e2, uadd, usub_eq (show L < M64 by unfold M64 at *; omega) hge,
        Nat.mod_eq_of_lt hnw]
      omega
  · intro count hc r h
    unfold i_buffer_skip at h
    split_ifs at h with h1
    have : _ = r := Option.some.inj h
    rw [← this]
    refine ⟨rfl, ?_⟩
    show uadd s.skip count ≤ s.pos
    rw [usub_eq h6 hsp] at hc
    rw [uadd_eq (by omega)]
    omega
  · intro count hc hcl r h
    unfold i_buffer_skip at h
    split_ifs at h with h1 h2
    · rw [hcl] at h2; exact absurd h2 (by decide)
    · have : _ = r := Option.some.inj h
      exact ⟨_, _, this.symm, rfl⟩
  · intro count hc hcl r h
    unfold i_buffer_skip at h
    split_ifs at h with h1
    exact (Option.some.inj h).symm
  · unfold i_buffer_next_line
    generalize i_buffer_skip_lf s = t at hk hsp1
    simp only
    split_ifs with h1 h2
    · exact hsp1
    · exact hsp1
    · rcases hsc : next_line_scan t.buffer t.pos (t.pos - t.cr_lookup_pos) t.cr_lookup_pos
        with ⟨b, i⟩
      cases b
      · exact hsp1
      · have hrt : t.pos < M64 := by rw [hk.1]; exact h6
        have := scan_true_lt t.buffer t.pos hrt _ _ _ hsc
        show uadd i 1 ≤ t.pos
        rw [uadd_eq (by omega)]
        omega
  · unfold i_buffer_get_data
    simp only
    split_ifs <;> exact hsp1

/-- Claim C18, amended, at the record `st_window`: the limit 104, a skip of 4
bytes, a line read and a data access each keep `skip ≤ pos`. -/
theorem skip_le_pos_kept_witness :
    st_window.inRange ∧ st_window.skip ≤ st_window.pos ∧
    (∀ s1, i_buffer_set_read_limit st_window 104 = some s1 →
      104 - st_window.v_offset + st_window.skip < M64 → s1.skip ≤ s1.pos) ∧
    (4 ≤ usub st_window.pos st_window.skip →
      ∀ r, i_buffer_skip be_eof st_window 4 = some r → r.1 = 1 ∧ r.2.skip ≤ r.2.pos) ∧
    (i_buffer_next_line st_window).2.skip ≤ (i_buffer_next_line st_window).2.pos ∧
    (i_buffer_get_data st_window).2.2.skip ≤ (i_buffer_get_data st_window).2.2.pos :=
  ⟨by decide, by decide,
    (skip_le_pos_kept be_eof st_window (by decide) (by decide)).2.1 104,
    (skip_le_pos_kept be_eof st_window (by decide) (by decide)).2.2.1 4,
    (skip_le_pos_kept be_eof st_window (by decide) (by decide)).2.2.2.2.2.1,
    (skip_le_pos_kept be_eof st_window (by decide) (by decide)).2.2.2.2.2.2⟩

/-- Claim C16: evaluation at `st_lines` and `st_scanned`, both satisfying
`skip ≤ cr_lookup_pos ≤ pos`.  The fast path of `i_buffer_skip` moves `skip` to 4
and leaves `cr_lookup_pos` at 0, so the invariant is lost; the next
`i_buffer_next_line` then finds the LF at index 2, behind `skip`, returns the
pointer 4 and moves `skip` and `v_offset` back to 3.  `i_buffer_set_read_limit`
with limit 2 cuts `pos` to 2, below `cr_lookup_pos = 4`. -/
theorem skip_leaves_cr_lookup_pos_behind (be : Backend) :
    cr_inv st_lines ∧
    i_buffer_skip be st_lines 4 = some (1, { st_lines with skip := 4, v_offset := 4 }) ∧
    ¬ cr_inv { st_lines with skip := 4, v_offset := 4 } ∧
    i_buffer_next_line { st_lines with skip := 4, v_offset := 4 } =
      (some 4, { st_lines with buffer := [97, 98, 0, 99, 100, 10, 101, 102],
                               skip := 3, v_offset := 3, cr_lookup_pos := 3 }) ∧
    cr_inv { st_scanned with v_size := 20, v_limit := 20 } ∧
    i_buffer_set_read_limit { st_scanned with v_size := 20, v_limit := 20 } 2 =
      some { st_scanned with v_size := 20, v_limit := 2, pos := 2 } ∧
    ¬ cr_inv { st_scanned with v_size := 20, v_limit := 2, pos := 2 } :=
  ⟨by decide, rfl, by decide, by decide, by decide, by decide, by decide⟩

/-- Claim C18, as stated, fails at `st_huge` (`skip = 10`, `pos = 20`,
`v_offset = 0`) with the limit `2^64 - 1 = v_size`: every hypothesis of the
claim holds, the sum `L - v_offset + skip` wraps to 9, `pos` becomes 9 and
`skip ≤ pos` is lost. -/
theorem set_read_limit_wraps_pos :
    st_huge.inRange ∧ st_huge.skip ≤ st_huge.pos ∧
    st_huge.v_offset ≤ 18446744073709551615 ∧ 18446744073709551615 ≤ st_huge.v_size ∧
    i_buffer_set_read_limit st_huge 18446744073709551615 = some { st_huge with pos := 9 } ∧
    ¬ ({ st_huge with pos := 9 } : IBuffer).skip ≤ ({ st_huge with pos := 9 } : IBuffer).pos := by
  decide

/-! ## Resuming the scan -/

/-- The part of `i_buffer_next_line` that follows `i_buffer_skip_lf` depends on
`cr_lookup_pos` only through the scan. -/
theorem next_line_resume_core (s : IBuffer) (hw : s.w_buffer = true) (hr : s.pos < M64)
    (hsc : s.skip ≤ s.cr_lookup_pos) (hcp : s.cr_lookup_pos ≤ s.pos)
    (hpre : ∀ j, s.skip ≤ j → j < s.cr_lookup_pos →
      ¬ (s.buffer.getD j 0 = 13 ∨ s.buffer.getD j 0 = 10))
    (hlf : ¬ (s.last_cr = true ∧ s.skip < s.pos ∧ s.buffer.getD s.skip 0 = 10)) :
    i_buffer_next_line s = i_buffer_next_line { s with cr_lookup_pos := s.skip } := by
  have hk := skip_lf_no_absorb s hlf
  have hk2 := skip_lf_no_absorb { s with cr_lookup_pos := s.skip } hlf
  unfold i_buffer_next_line
  rw [hk, hk2]
  by_cases h1 : s.skip ≥ s.pos
  · have hc : s.cr_lookup_pos = s.skip := by omega
    simp only [if_pos h1]
    rw [hc]
  · simp only [if_neg h1]
    simp only [hw, Bool.not_true, Bool.false_eq_true, if_false]
    have hres := scan_resume s.buffer s.pos hr (s.cr_lookup_pos - s.skip) s.skip
      s.cr_lookup_pos (by omega) hcp hpre
    rw [hres]

/-- A pending LF at `skip` forces `cr_lookup_pos = skip` when `[skip, cr_lookup_pos)`
holds no CR or LF. -/
theorem cr_eq_skip_of_lf (s : IBuffer) (hsc : s.skip ≤ s.cr_lookup_pos)
    (hpre : ∀ j, s.skip ≤ j → j < s.cr_lookup_pos →
      ¬ (s.buffer.getD j 0 = 13 ∨ s.buffer.getD j 0 = 10))
    (h10 : s.buffer.getD s.skip 0 = 10) : s.cr_lookup_pos = s.skip := by
  by_contra hne
  exact hpre s.skip (le_refl _) (by omega) (Or.inr h10)

/-- Claim C19: in a writable buffer with `skip ≤ cr_lookup_pos ≤ pos` and no CR or
LF in `[skip, cr_lookup_pos)`, `i_buffer_next_line` gives the same result and
the same final record as the call made with `cr_lookup_pos` reset to `skip`;
and when no CR or LF lies in `[skip, pos)` it returns NULL with
`cr_lookup_pos = pos` and with `skip`, `v_offset`, `pos` and the buffer bytes
unchanged. -/
theorem next_line_resume (s : IBuffer) (hw : s.w_buffer = true) (hr : s.pos < M64)
    (hsc : s.skip ≤ s.cr_lookup_pos) (hcp : s.cr_lookup_pos ≤ s.pos)
    (hpre : ∀ j, s.skip ≤ j → j < s.cr_lookup_pos →
      ¬ (s.buffer.getD j 0 = 13 ∨ s.buffer.getD j 0 = 10)) :
    i_buffer_next_line s = i_buffer_next_line { s with cr_lookup_pos := s.skip } ∧
    ((∀ j, s.skip ≤ j → j < s.pos → ¬ (s.buffer.getD j 0 = 13 ∨ s.buffer.getD j 0 = 10)) →
      (i_buffer_next_line s).1 = none ∧
      (i_buffer_next_line s).2.cr_lookup_pos = s.pos ∧
      (i_buffer_next_line s).2.skip = s.skip ∧
      (i_buffer_next_line s).2.v_offset = s.v_offset ∧
      (i_buffer_next_line s).2.buffer = s.buffer ∧
      (i_buffer_next_line s).2.pos = s.pos) := by
  constructor
  · by_cases hlf : s.last_cr = true ∧ s.skip < s.pos ∧ s.buffer.getD s.skip 0 = 10
    · have hc := cr_eq_skip_of_lf s hsc hpre hlf.2.2
      have : { s with cr_lookup_pos := s.skip } = s := by
        cases s; simp only at hc; subst hc; rfl
      rw [this]
    · exact next_line_resume_core s hw hr hsc hcp hpre hlf
  · intro hno
    have hlf : ¬ (s.last_cr = true ∧ s.skip < s.pos ∧ s.buffer.getD s.skip 0 = 10) :=
      fun h => hno s.skip (le_refl _) h.2.1 (Or.inr h.2.2)
    have hk := skip_lf_no_absorb s hlf
    by_cases h1 : s.skip ≥ s.pos
    · have hnl : i_buffer_next_line s =
          (none, { s with last_cr := s.last_cr && decide (s.skip ≥ s.pos) }) := by
        unfold i_buffer_next_line
        rw [hk]
        simp only [if_pos h1]
      rw [hnl]
      exact ⟨rfl, by show s.cr_lookup_pos = s.pos; omega, rfl, rfl, rfl, rfl⟩
    · have hscan := scan_index_none s.buffer s.pos hr (s.pos - s.cr_lookup_pos)
        s.cr_lookup_pos hcp (fun j h1 h2 => hno j (by omega) h2) (le_refl _)
      have hnl : i_buffer_next_line s =
          (none, { s with last_cr := s.last_cr && decide (s.skip ≥ s.pos),
                          cr_lookup_pos := s.pos }) := by
        unfold i_buffer_next_line
        rw [hk]
        simp only [if_neg h1, hw, Bool.not_true, Bool.false_eq_true, if_false, hscan]
      rw [hnl]
      exact ⟨rfl, rfl, rfl, rfl, rfl, rfl⟩

/-- Claim C19 at the record `st_scanned`, which resumes at index 4 and returns
"abcde". -/
theorem next_line_resume_witness :
    i_buffer_next_line st_scanned
      = i_buffer_next_line { st_scanned with cr_lookup_pos := st_scanned.skip } ∧
    (i_buffer_next_line st_scanned).1 = some 0 ∧
    line_at (i_buffer_next_line st_scanned).2 0 = [97, 98, 99, 100, 101] :=
  ⟨(next_line_resume st_scanned (by decide) (by decide) (by decide) (by decide)
      (by decide)).1, by decide, by decide⟩

/-! ## Rebasing and the window -/

/-- Claim C17, as stated, fails at `st_bounded` (`v_offset = 0`, `v_limit = v_size
= 10`, `start_offset = 0`) and offset 5: `v_size` and `v_limit` become 5 while
`v_offset` wraps to `2^64 - 5`. -/
theorem set_start_offset_breaks_window :
    st_bounded.v_size ≠ 0 ∧ st_bounded.v_offset ≤ st_bounded.v_limit ∧
    st_bounded.v_limit ≤ st_bounded.v_size ∧
    5 ≤ st_bounded.start_offset + st_bounded.v_size ∧
    ∃ s1, i_buffer_set_start_offset st_bounded 5 = some s1 ∧
      s1.v_size = 5 ∧ s1.v_limit = 5 ∧ s1.v_offset = 18446744073709551611 ∧
      ¬ (s1.v_size ≠ 0 → s1.v_offset ≤ s1.v_limit ∧ s1.v_limit ≤ s1.v_size) := by
  refine ⟨by decide, by decide, by decide, by decide, _, rfl, by decide, by decide, by decide,
    by decide⟩

/-- Claim C17, amended: for a bounded record with `v_offset ≤ v_limit ≤ v_size`
whose absolute end `start_offset + v_size` fits 64 bits, and an offset not past
the current absolute position `start_offset + v_offset`,
`i_buffer_set_start_offset` moves `v_offset`, `v_limit` and `v_size` by the same
amount without wrapping, so that afterwards `v_offset ≤ v_limit ≤ v_size` holds
again whenever `v_size ≠ 0`. -/
theorem set_start_offset_window (s : IBuffer) (offset : Nat) (hs : s.inRange)
    (hv : s.v_size ≠ 0) (hinv : s.v_offset ≤ s.v_limit ∧ s.v_limit ≤ s.v_size)
    (hend : s.start_offset + s.v_size < M64)
    (hoff : offset ≤ s.start_offset + s.v_offset) :
    ∃ s1, i_buffer_set_start_offset s offset = some s1 ∧
      s1.v_offset + offset = s.v_offset + s.start_offset ∧
      s1.v_limit + offset = s.v_limit + s.start_offset ∧
      s1.v_size + offset = s.v_size + s.start_offset ∧
      (s1.v_size ≠ 0 → s1.v_offset ≤ s1.v_limit ∧ s1.v_limit ≤ s1.v_size) := by
  obtain ⟨h1, h2, h3, h4, _⟩ := hs
  have hpre : s.v_size = 0 ∨ offset ≤ uadd s.start_offset s.v_size := by
    right; rw [uadd_eq hend]; omega
  by_cases h : offset = s.start_offset
  · refine ⟨s, by rw [i_buffer_set_start_offset, if_pos hpre, if_pos h], ?_, ?_, ?_,
      fun _ => hinv⟩ <;> omega
  · rw [i_buffer_set_start_offset, if_pos hpre, if_neg h]
    have key : ∀ u, u < M64 → offset ≤ s.start_offset + u → s.start_offset + u < M64 →
        uoff_add_off u (off_sub (to_off_t s.start_offset) (to_off_t offset)) + offset
          = u + s.start_offset := by
      intro u hu h1 h2
      have := uoff_add_off_diff u s.start_offset offset hu
      unfold M64 at *
      omega
    have k1 := key s.v_offset h2 hoff (by omega)
    have k2 := key s.v_limit h4 (by omega) (by omega)
    have k3 := key s.v_size h3 (by omega) hend
    refine ⟨_, rfl, k1, ?_, ?_, ?_⟩
    · simp only [ne_eq, hv, not_false_eq_true, if_true]; exact k2
    · simp only [ne_eq, hv, not_false_eq_true, if_true]; exact k3
    · intro _
      simp only [ne_eq, hv, not_false_eq_true, if_true]
      omega

/-- Claim C17, amended, at `st_window` rebased to offset 40. -/
theorem set_start_offset_window_witness :
    st_window.inRange ∧ st_window.v_size ≠ 0 ∧
    ∃ s1, i_buffer_set_start_offset st_window 40 = some s1 ∧
      s1.v_offset + 40 = st_window.v_offset + st_window.start_offset ∧
      s1.v_limit + 40 = st_window.v_limit + st_window.start_offset ∧
      s1.v_size + 40 = st_window.v_size + st_window.start_offset ∧
      (s1.v_size ≠ 0 → s1.v_offset ≤ s1.v_limit ∧ s1.v_limit ≤ s1.v_size) :=
  ⟨by decide, by decide,
    set_start_offset_window st_window 40 (by decide) (by decide) (by decide) (by decide)
      (by decide)⟩

/-- Adding the signed difference `a - b` and the new origin `b` gives back the
old absolute value modulo `2^64`. -/
theorem uoff_add_off_abs (u a b : Nat) :
    (b + uoff_add_off u (off_sub (to_off_t a) (to_off_t b))) % M64 = (a + u) % M64 := by
  unfold uoff_add_off off_sub to_off_t M64
  simp only [Nat.cast_ofNat]
  split_ifs <;> omega

/-- Claim C20: for every record and every offset that passes the assertion,
`i_buffer_set_start_offset` keeps `start_offset + v_offset` and, when the old
`v_size` is non-zero, `start_offset + v_size` and `start_offset + v_limit`, all
taken modulo `2^64`. -/
theorem set_start_offset_absolute (s : IBuffer) (offset : Nat)
    (hpre : s.v_size = 0 ∨ offset ≤ uadd s.start_offset s.v_size) :
    ∃ s1, i_buffer_set_start_offset s offset = some s1 ∧
      (s1.start_offset + s1.v_offset) % M64 = (s.start_offset + s.v_offset) % M64 ∧
      (s.v_size ≠ 0 →
        (s1.start_offset + s1.v_size) % M64 = (s.start_offset + s.v_size) % M64 ∧
        (s1.start_offset + s1.v_limit) % M64 = (s.start_offset + s.v_limit) % M64) := by
  by_cases h : offset = s.start_offset
  · exact ⟨s, by rw [i_buffer_set_start_offset, if_pos hpre, if_pos h], rfl, fun _ => ⟨rfl, rfl⟩⟩
  · rw [i_buffer_set_start_offset, if_pos hpre, if_neg h]
    refine ⟨_, rfl, uoff_add_off_abs _ _ _, ?_⟩
    intro hv
    simp only [ne_eq, hv, not_false_eq_true, if_true]
    exact ⟨uoff_add_off_abs _ _ _, uoff_add_off_abs _ _ _⟩

/-- Claim C20 at `st_window` rebased to offset 40. -/
theorem set_start_offset_absolute_witness :
    (st_window.v_size = 0 ∨ 40 ≤ uadd st_window.start_offset st_window.v_size) ∧
    ∃ s1, i_buffer_set_start_offset st_window 40 = some s1 ∧
      (s1.start_offset + s1.v_offset) % M64
        = (st_window.start_offset + st_window.v_offset) % M64 ∧
      (st_window.v_size ≠ 0 →
        (s1.start_offset + s1.v_size) % M64
          = (st_window.start_offset + st_window.v_size) % M64 ∧
        (s1.start_offset + s1.v_limit) % M64
          = (st_window.start_offset + st_window.v_limit) % M64) :=
  ⟨by decide, set_start_offset_absolute st_window 40 (by decide)⟩

end IBuf
